import Mathlib

/-!
# The multiplexed event server of `socket_task_2.cpp`

A shallow embedding of `EventListener` and `EventWorker`.

* The operating system is an explicit environment: what `select`, `accept`,
  the one-byte `recv(..., MSG_PEEK)`, `recv(..., MSG_DONTWAIT)` and `send`
  answer is an input of the model.
* Every system call and every handler dispatch the loop makes is recorded as
  an `Event`; the functions return the events they produced next to the new
  state.
* `listen` starts a handler with
  `if( m_handleRead ) auto result = std::async( std::launch::async, ... );`.
  The future `result` is a local of the `if` substatement and is destroyed at
  its end; the destructor of a future obtained from `std::async` with the
  `std::launch::async` policy blocks until the task has completed. The handler
  therefore has run to completion when the next statement of the loop starts,
  and the embedding runs it inside `dispatch`.
-/

namespace SocketTask2

/-! ## Descriptor sets -/

/-- A descriptor set of `select(2)`, as its membership test. -/
abbrev fd_set := Int → Bool

/-- The empty set, `FD_ZERO`. -/
def FD_ZERO : fd_set := fun _ => false

/-- Adding a descriptor, `FD_SET`. -/
def FD_SET (fd : Int) (s : fd_set) : fd_set := fun j => if j = fd then true else s j

/-- Removing a descriptor, `FD_CLR`. -/
def FD_CLR (fd : Int) (s : fd_set) : fd_set := fun j => if j = fd then false else s j

/-- Membership, `FD_ISSET`. -/
def FD_ISSET (fd : Int) (s : fd_set) : Bool := s fd

/-! ## Workers, handlers, events -/

/-- An `EventWorker`: the descriptor of one accepted socket. Its reference
`m_eventListener` is the single listener whose state is threaded below. -/
structure EventWorker where
  m_fileDescriptor : Int
deriving DecidableEq, Repr

/-- The accessor `EventWorker::fileDescriptor`. -/
def EventWorker.fileDescriptor (w : EventWorker) : Int := w.m_fileDescriptor

/-- A handler, seen from the listener: it is handed one worker, and the only
call it can make through it that changes the listener is `EventWorker::close`.
The value is how many times it makes that call. -/
abbrev Handler := EventWorker → Nat

/-- What the loop does that is visible outside it. -/
inductive Event where
  /-- The call `accept( m_socket, ... )` returned this value. -/
  | accepted (result : Int)
  /-- The call `recv( fd, buffer, 1, MSG_PEEK )` was made. -/
  | peek (fd : Int)
  /-- The on-accept handler was started on the worker of this descriptor. -/
  | dispatchAccept (fd : Int)
  /-- The on-read handler was started on the worker of this descriptor. -/
  | dispatchRead (fd : Int)
  /-- The call `EventListener::close( fd )` ran. -/
  | scheduled (fd : Int)
  /-- The handler task of this descriptor has finished and its future is destroyed. -/
  | joined (fd : Int)
  /-- The call `::close( fd )` was made. -/
  | osClose (fd : Int)
deriving DecidableEq, Repr

/-- Is the event a handler dispatch on the worker of descriptor `h`? -/
def Event.isDispatchFor (h : Int) : Event → Bool
  | Event.dispatchAccept fd => decide (fd = h)
  | Event.dispatchRead fd => decide (fd = h)
  | _ => false

/-! ## The listener -/

/-- The members of `EventListener` that the loop uses, with the locals of
`EventListener::listen` that live across loop iterations. -/
structure ListenState where
  m_socket : Int
  m_handleAccept : Option Handler
  m_handleRead : Option Handler
  m_eventWorkers : List EventWorker
  m_staleFileDescriptors : List Int
  masterSocketSet : fd_set
  highestFileDescriptor : Int
  newHighestFileDescriptor : Int

/-- The state of `listen` when it enters `while( 1 )` with listening socket `sock`. -/
def listenInit (sock : Int) (onAccept onRead : Option Handler) : ListenState :=
  { m_socket := sock
    m_handleAccept := onAccept
    m_handleRead := onRead
    m_eventWorkers := []
    m_staleFileDescriptors := []
    masterSocketSet := FD_SET sock FD_ZERO
    highestFileDescriptor := sock
    newHighestFileDescriptor := sock }

/-- The method `EventListener::close( int fileDescriptor )`: erase-remove of every
worker with that descriptor, then `push_back` on the stale list. -/
def EventListener.close (fileDescriptor : Int) (s : ListenState) : ListenState :=
  { s with
    m_eventWorkers :=
      s.m_eventWorkers.filter (fun w => !decide (w.fileDescriptor = fileDescriptor))
    m_staleFileDescriptors := s.m_staleFileDescriptors ++ [fileDescriptor] }

/-- The method `EventWorker::close`. -/
def EventWorker.close (w : EventWorker) (s : ListenState) : ListenState :=
  EventListener.close w.m_fileDescriptor s

/-- The lookup `std::find_if` over `m_eventWorkers` by descriptor. -/
def findWorker (i : Int) (s : ListenState) : Option EventWorker :=
  s.m_eventWorkers.find? (fun w => decide (w.fileDescriptor = i))

/-- A handler body run on worker `w`: its calls of `EventWorker::close`, in order. -/
def runHandler (f : Handler) (w : EventWorker) : Nat → ListenState → ListenState
  | 0, s => s
  | n + 1, s => runHandler f w n (EventWorker.close w s)

/-- Which dispatch is made. -/
inductive Slot where
  | onAccept
  | onRead
deriving DecidableEq, Repr

/-- The dispatch event of a slot. -/
def Slot.event : Slot → Int → Event
  | Slot.onAccept, fd => Event.dispatchAccept fd
  | Slot.onRead, fd => Event.dispatchRead fd

/-- The statement `auto result = std::async( std::launch::async, handler, worker );`
as the substatement of an `if`: the task is started, and the destructor of
`result` at the end of the substatement waits for it. -/
def dispatch (slot : Slot) (f : Handler) (w : EventWorker) (s : ListenState) :
    ListenState × List Event :=
  (runHandler f w (f w) s,
    slot.event w.fileDescriptor ::
      (List.replicate (f w) (Event.scheduled w.fileDescriptor) ++ [Event.joined w.fileDescriptor]))

/-- What the operating system answers during one iteration of `while( 1 )`. -/
structure Env where
  /-- Does `select` return `-1`? -/
  selectFails : Bool
  /-- Which descriptors have something to read. -/
  readable : Int → Bool
  /-- The value returned by `accept`. -/
  acceptResult : Int
  /-- The value returned by the one-byte peek on a descriptor. -/
  peekResult : Int → Int

/-- The call `select( nfds, &set, nullptr, nullptr, nullptr )`: the return value
and the set as `select` leaves it. -/
def select (nfds : Int) (readfds : fd_set) (env : Env) : Int × fd_set :=
  if env.selectFails then (-1, readfds)
  else
    let ready : fd_set :=
      fun i => decide (0 ≤ i) && decide (i < nfds) && readfds i && env.readable i
    ((((List.range nfds.toNat).filter (fun k => ready (k : Int))).length : Int), ready)

/-- How the body of the `for` loop ends. -/
inductive Flow where
  | next
  | brk
deriving DecidableEq, Repr

/-- The two statements after a successful `accept`: `FD_SET` on the master set and
the update of `newHighestFileDescriptor`. -/
def watchClient (clientFileDescriptor : Int) (s : ListenState) : ListenState :=
  { s with
    masterSocketSet := FD_SET clientFileDescriptor s.masterSocketSet
    newHighestFileDescriptor := max s.highestFileDescriptor clientFileDescriptor }

/-- The branch `if( i == m_socket )` of the scan. -/
def acceptBranch (env : Env) (s : ListenState) : Flow × ListenState × List Event :=
  let clientFileDescriptor := env.acceptResult
  if clientFileDescriptor = -1 then (Flow.brk, s, [Event.accepted clientFileDescriptor])
  else
    let s1 : ListenState := watchClient clientFileDescriptor s
    let eventWorker : EventWorker := { m_fileDescriptor := clientFileDescriptor }
    let r : ListenState × List Event :=
      match s1.m_handleAccept with
      | some f => dispatch Slot.onAccept f eventWorker s1
      | none => (s1, [])
    (Flow.next,
      { r.1 with m_eventWorkers := r.1.m_eventWorkers ++ [eventWorker] },
      Event.accepted clientFileDescriptor :: r.2)

/-- The branch of the scan for a known client socket. -/
def clientBranch (env : Env) (i : Int) (s : ListenState) : ListenState × List Event :=
  let result := env.peekResult i
  if result ≤ 0 then (EventListener.close i s, [Event.peek i, Event.scheduled i])
  else
    match findWorker i s, s.m_handleRead with
    | some w, some f =>
      let r := dispatch Slot.onRead f w s
      (r.1, Event.peek i :: r.2)
    | _, _ => (s, [Event.peek i])

/-- One pass through the body of `for( int i = 0; i <= highestFileDescriptor; i++ )`. -/
def scanBody (env : Env) (clientSocketSet : fd_set) (i : Int) (s : ListenState) :
    Flow × ListenState × List Event :=
  if !FD_ISSET i clientSocketSet then (Flow.next, s, [])
  else if i = s.m_socket then acceptBranch env s
  else
    let r := clientBranch env i s
    (Flow.next, r.1, r.2)

/-- The `for` loop from index `i` on, with `n` passes left. -/
def scanFor (env : Env) (clientSocketSet : fd_set) :
    Nat → Int → ListenState → Flow × ListenState × List Event
  | 0, _, s => (Flow.next, s, [])
  | n + 1, i, s =>
    match scanBody env clientSocketSet i s with
    | (Flow.brk, s1, ev) => (Flow.brk, s1, ev)
    | (Flow.next, s1, ev) =>
      let r := scanFor env clientSocketSet n (i + 1) s1
      (r.1, r.2.1, ev ++ r.2.2)

/-- The block under `m_staleFileDescriptorsMutex` that ends an iteration. -/
def drain (s : ListenState) : ListenState × List Event :=
  ({ s with
      masterSocketSet :=
        s.m_staleFileDescriptors.foldl (fun m fd => FD_CLR fd m) s.masterSocketSet
      m_staleFileDescriptors := [] },
    s.m_staleFileDescriptors.map Event.osClose)

/-- The readiness set of an iteration: `clientSocketSet` after `select`. -/
def readySet (env : Env) (s : ListenState) : fd_set :=
  (select (s.highestFileDescriptor + 1) s.masterSocketSet env).2

/-- The state in which the scan of an iteration starts. -/
def scanStart (s : ListenState) : ListenState :=
  { s with newHighestFileDescriptor := s.highestFileDescriptor }

/-- The scan of an iteration cut after its first `n` descriptors `0 .. n-1`. -/
def scanUpTo (env : Env) (s : ListenState) (n : Nat) : Flow × ListenState × List Event :=
  scanFor env (readySet env s) n 0 (scanStart s)

/-- The whole scan of an iteration. -/
def scan (env : Env) (s : ListenState) : Flow × ListenState × List Event :=
  scanUpTo env s (s.highestFileDescriptor + 1).toNat

/-- The statement `highestFileDescriptor = std::max( newHighestFileDescriptor,
highestFileDescriptor )` after the scan. -/
def finishScan (s : ListenState) : ListenState :=
  { s with
    highestFileDescriptor := max s.newHighestFileDescriptor s.highestFileDescriptor }

/-- The part of an iteration after `select` has returned: the scan, the update of
the loop bound and the drain. -/
def iterationOutcome (env : Env) (s : ListenState) : ListenState × List Event :=
  let r := scan env s
  let d := drain (finishScan r.2.1)
  (d.1, r.2.2 ++ d.2)

/-- One iteration of `while( 1 )`; `none` when the loop is left. -/
def loopIteration (env : Env) (s : ListenState) : Option (ListenState × List Event) :=
  if (select (s.highestFileDescriptor + 1) s.masterSocketSet env).1 = -1 then none
  else some (iterationOutcome env s)

/-- The loop `while( 1 )` over the answers of the operating system, one `Env`
an iteration; it ends when `select` fails or the answers are used up. -/
def listenLoop : List Env → ListenState → ListenState × List Event
  | [], s => (s, [])
  | env :: rest, s =>
    match loopIteration env s with
    | none => (s, [])
    | some r =>
      let t := listenLoop rest r.1
      (t.1, r.2 ++ t.2)

/-- The descriptors of the live set. -/
def liveHandles (s : ListenState) : List Int :=
  s.m_eventWorkers.map EventWorker.fileDescriptor

/-- No dispatch on the worker of `h` follows a `close( h )` in the event list. -/
def noDispatchAfterClose (h : Int) : List Event → Bool
  | [] => true
  | e :: rest =>
    (!decide (e = Event.scheduled h) || rest.all (fun x => !x.isDispatchFor h))
      && noDispatchAfterClose h rest

/-! ## Worker input and output -/

/-- One byte of a `std::string` or of a socket buffer. -/
abbrev Byte := UInt8

/-- The sending side of a connection as `send` sees it. -/
structure Transport where
  /-- Does `send` return `-1`? -/
  fails : Bool
  /-- How many bytes one call of `send` takes at most. -/
  perCall : Nat
  /-- The bytes handed over so far. -/
  delivered : List Byte

/-- The call `send( fd, buf, len, 0 )`: the return value and the transport after it. -/
def send (t : Transport) (buf : List Byte) (len : Nat) : Int × Transport :=
  if t.fails then (-1, t)
  else
    let k := min len t.perCall
    ((k : Int), { t with delivered := t.delivered ++ buf.take k })

/-- The exception thrown by `EventWorker::write`. -/
inductive WriteError where
  | runtime_error
deriving DecidableEq, Repr

/-- The method `EventWorker::write`: one call of `send`, whose result is only
compared with `-1`. -/
def EventWorker.write (data : List Byte) (t : Transport) : Except WriteError Transport :=
  let r := send t data data.length
  if r.1 = -1 then Except.error WriteError.runtime_error else Except.ok r.2

/-- The size of `char buffer[256]` in `EventWorker::read`. -/
def bufferSize : Nat := 256

/-- The text that `message += buffer` appends after `buffer[numBytes] = 0`:
the received bytes up to the first zero byte. -/
def cString (received : List Byte) : List Byte :=
  received.takeWhile (fun b => b != 0)

/-- The loop of `EventWorker::read`. The list holds what the successive calls
`recv( fd, buffer, sizeof(buffer), MSG_DONTWAIT )` deliver: an empty entry is a
return value of `0`, the end of the list a return value of `-1`. The result is
`none` when the loop stores outside `buffer`, which it does at `buffer[256]`
once a call fills the buffer. -/
def readLoop : List (List Byte) → List Byte → Option (List Byte)
  | [], message => some message
  | chunk :: rest, message =>
    let received := chunk.take bufferSize
    let numBytes := received.length
    if numBytes = 0 then some message
    else if bufferSize ≤ numBytes then none
    else readLoop rest (message ++ cString received)

/-- The method `EventWorker::read`. -/
def EventWorker.read (deliveries : List (List Byte)) : Option (List Byte) :=
  readLoop deliveries []

/-! ## Concrete listeners used in the evaluations below -/

/-- A handler that calls `close` once on the worker it is handed. -/
def closingHandler : Handler := fun _ => 1

/-- A handler that never calls `close`, as the on-read handler of `main`. -/
def echoHandler : Handler := fun _ => 0

/-- A listener on socket `3` with the live connections `4` and `5`, both watched;
`pending` is its stale list. -/
def twoClients (onAccept onRead : Option Handler) (pending : List Int) : ListenState :=
  { m_socket := 3
    m_handleAccept := onAccept
    m_handleRead := onRead
    m_eventWorkers := [{ m_fileDescriptor := 4 }, { m_fileDescriptor := 5 }]
    m_staleFileDescriptors := pending
    masterSocketSet := FD_SET 5 (FD_SET 4 (FD_SET 3 FD_ZERO))
    highestFileDescriptor := 5
    newHighestFileDescriptor := 5 }

/-- A listener on socket `3` with the one live connection `4`, watched. -/
def oneClient (onAccept onRead : Option Handler) : ListenState :=
  { m_socket := 3
    m_handleAccept := onAccept
    m_handleRead := onRead
    m_eventWorkers := [{ m_fileDescriptor := 4 }]
    m_staleFileDescriptors := []
    masterSocketSet := FD_SET 4 (FD_SET 3 FD_ZERO)
    highestFileDescriptor := 4
    newHighestFileDescriptor := 4 }

/-- An iteration in which the descriptors of `ready` are readable, `accept`
returns `acc` and every peek returns `pk`. -/
def envOf (ready : List Int) (acc pk : Int) : Env :=
  { selectFails := false
    readable := fun i => decide (i ∈ ready)
    acceptResult := acc
    peekResult := fun _ => pk }

/-- The bytes of the text `hello`. -/
def hello : List Byte := [104, 101, 108, 108, 111]

/-- The state `t` comes from `s` by steps of the scan: the listening socket, the
handlers and the loop bound are those of `s`, and the stale list has lost nothing. -/
def Keeps (s t : ListenState) : Prop :=
  t.m_socket = s.m_socket ∧ t.m_handleAccept = s.m_handleAccept ∧
  t.m_handleRead = s.m_handleRead ∧ t.highestFileDescriptor = s.highestFileDescriptor ∧
  ∀ x ∈ s.m_staleFileDescriptors, x ∈ t.m_staleFileDescriptors

end SocketTask2

/-!
# The hand test of `poker_task_1.cpp`

A shallow embedding of `Card` and of `Deck::isStraight`, with the `std::string`
of marks as a list of characters.
-/

namespace PokerTask1

/-- The enumeration `Card::SUIT`. -/
inductive SUIT where
  | HEART
  | DIAMOND
  | CLUB
  | SPADE
deriving DecidableEq, Repr

/-- The enumeration `Card::RANK`. -/
inductive RANK where
  | A
  | TWO
  | THREE
  | FOUR
  | FIVE
  | SIX
  | SEVEN
  | EIGHT
  | NINE
  | TEN
  | J
  | Q
  | K
deriving DecidableEq, Repr

/-- The value of a rank, `unsigned( rank )`: `A = 1`, then one more for each enumerator. -/
def RANK.toNat : RANK → Nat
  | RANK.A => 1
  | RANK.TWO => 2
  | RANK.THREE => 3
  | RANK.FOUR => 4
  | RANK.FIVE => 5
  | RANK.SIX => 6
  | RANK.SEVEN => 7
  | RANK.EIGHT => 8
  | RANK.NINE => 9
  | RANK.TEN => 10
  | RANK.J => 11
  | RANK.Q => 12
  | RANK.K => 13

/-- The class `Card`. -/
structure Card where
  m_suit : SUIT
  m_rank : RANK
deriving DecidableEq, Repr

/-- The accessor `Card::suit`. -/
def Card.suit (c : Card) : SUIT := c.m_suit

/-- The accessor `Card::rank`. -/
def Card.rank (c : Card) : RANK := c.m_rank

/-- The type `std::array<Card, 5>`. -/
structure CardArray_5 where
  c0 : Card
  c1 : Card
  c2 : Card
  c3 : Card
  c4 : Card
deriving DecidableEq, Repr

/-- The cards of the array in the order of the range-based `for`. -/
def CardArray_5.toList (cards : CardArray_5) : List Card :=
  [cards.c0, cards.c1, cards.c2, cards.c3, cards.c4]

/-- Does the text start with the pattern? -/
def startsWith : List Char → List Char → Bool
  | _, [] => true
  | [], _ :: _ => false
  | c :: s, p :: pat => (c == p) && startsWith s pat

/-- The search `std::string::find( pattern )` from position `pos` on; `none` is
`std::string::npos`. -/
def findFrom (pat : List Char) : List Char → Nat → Option Nat
  | [], pos => if startsWith [] pat then some pos else none
  | c :: s, pos => if startsWith (c :: s) pat then some pos else findFrom pat s (pos + 1)

/-- The call `strbits.find( pattern )`. -/
def find (strbits pat : List Char) : Option Nat := findFrom pat strbits 0

/-- The marks after the `for` loop of `isStraight`: a `'1'` at index `rank - 1`
for every card. -/
def markRanks (cards : List Card) (strbits : List Char) : List Char :=
  cards.foldl (fun s card => s.set (card.rank.toNat - 1) '1') strbits

/-- The function `Deck::isStraight`. -/
def Deck.isStraight (cards : CardArray_5) : Bool :=
  let maxRank := RANK.K.toNat
  let strbits := List.replicate maxRank '0'
  let strbits := markRanks cards.toList strbits
  let strbits := strbits ++ strbits.take 5
  let found := find strbits ['1', '1', '1', '1', '1']
  found.isSome

/-- A hand of five hearts with the given ranks. -/
def hearts (r0 r1 r2 r3 r4 : RANK) : CardArray_5 :=
  { c0 := { m_suit := SUIT.HEART, m_rank := r0 }
    c1 := { m_suit := SUIT.HEART, m_rank := r1 }
    c2 := { m_suit := SUIT.HEART, m_rank := r2 }
    c3 := { m_suit := SUIT.HEART, m_rank := r3 }
    c4 := { m_suit := SUIT.HEART, m_rank := r4 } }

/-- The ranks of a hand as numbers, the ace counting `ace`. -/
def rankValues (ace : Nat) (cards : CardArray_5) : List Nat :=
  cards.toList.map (fun c => if c.rank = RANK.A then ace else c.rank.toNat)

/-- Are the five numbers five distinct consecutive ones: `lo, lo + 1, .., lo + 4`
in some order? -/
def isRun (vals : List Nat) : Bool :=
  (List.range 15).any (fun lo => (List.range 5).all (fun k => decide (lo + k ∈ vals)))

/-- The straight as the claim words it: five distinct consecutive ranks, the ace
counting as the lowest rank (1) or as the highest (14). -/
def straightAsStated (cards : CardArray_5) : Bool :=
  isRun (rankValues 1 cards) || isRun (rankValues 14 cards)

/-- Is index `i` of the marks set by some card of the list, that is, does a card
have `unsigned( rank ) - 1 = i`? -/
def hasRank (cards : List Card) (i : Nat) : Bool :=
  cards.any (fun c => c.rank.toNat - 1 == i)

/-- Do the five ranks that start at index `p` and go round from the king to the
ace all occur in the hand? -/
def windowAt (cards : CardArray_5) (p : Nat) : Bool :=
  (List.range 5).all (fun k => hasRank cards.toList ((p + k) % 13))

/-- Does the hand hold five ranks in a row on the circle of the thirteen ranks? -/
def circularRun (cards : CardArray_5) : Bool :=
  (List.range 13).any (fun p => windowAt cards p)

/-- The character that marks a rank. -/
def bit (b : Bool) : Char := if b then '1' else '0'

end PokerTask1

namespace SocketTask2

/-! ## The registry: `EventListener::close( int )` and the drain -/

theorem close_eventWorkers (h : Int) (s : ListenState) :
    (EventListener.close h s).m_eventWorkers =
      s.m_eventWorkers.filter (fun w => !decide (w.fileDescriptor = h)) := rfl

theorem close_stale (h : Int) (s : ListenState) :
    (EventListener.close h s).m_staleFileDescriptors = s.m_staleFileDescriptors ++ [h] := rfl

theorem close_not_live (h : Int) (s : ListenState) :
    ∀ w ∈ (EventListener.close h s).m_eventWorkers, w.fileDescriptor ≠ h := by
  intro w hw
  rw [close_eventWorkers, List.mem_filter] at hw
  simpa using hw.2

theorem findWorker_none_of_not_live (h : Int) (s : ListenState)
    (hs : ∀ w ∈ s.m_eventWorkers, w.fileDescriptor ≠ h) : findWorker h s = none := by
  unfold findWorker
  rw [List.find?_eq_none]
  intro w hw
  simpa using hs w hw

theorem find_filter_of_imp {α : Type} (p q : α → Bool) (l : List α)
    (hpq : ∀ x, p x = true → q x = true) : (l.filter q).find? p = l.find? p := by
  induction l with
  | nil => rfl
  | cons x l ih =>
    cases hq : q x with
    | true =>
      rw [List.filter_cons_of_pos hq, List.find?_cons, List.find?_cons, ih]
    | false =>
      have hp : p x = false := by
        cases hp : p x with
        | false => rfl
        | true => rw [hpq x hp] at hq; exact absurd hq (by decide)
      rw [List.filter_cons_of_neg (by simp [hq]), List.find?_cons, hp, ih]

theorem findWorker_isSome (i : Int) (s : ListenState) :
    (findWorker i s).isSome = true ↔ ∃ w ∈ s.m_eventWorkers, w.fileDescriptor = i := by
  unfold findWorker
  rw [List.find?_isSome]
  simp

theorem foldl_clr_of_mem (l : List Int) (m : fd_set) (h : Int) (hm : h ∈ l) :
    FD_ISSET h (l.foldl (fun m fd => FD_CLR fd m) m) = false := by
  induction l generalizing m with
  | nil => simp at hm
  | cons a l ih =>
    simp only [List.foldl_cons]
    by_cases hl : h ∈ l
    · exact ih _ hl
    · have ha : h = a := by
        rcases List.mem_cons.1 hm with h1 | h1
        · exact h1
        · exact absurd h1 hl
      subst ha
      clear hm ih
      have key : ∀ (l : List Int) (m : fd_set), FD_ISSET h m = false →
          FD_ISSET h (l.foldl (fun m fd => FD_CLR fd m) m) = false := by
        intro l
        induction l with
        | nil => intro m hm; simpa using hm
        | cons b l ih =>
          intro m hm
          simp only [List.foldl_cons]
          apply ih
          simp only [FD_ISSET, FD_CLR] at hm ⊢
          split <;> simp_all
      apply key
      simp [FD_ISSET, FD_CLR]

theorem foldl_clr_of_not_mem (l : List Int) (m : fd_set) (h : Int) (hm : h ∉ l) :
    FD_ISSET h (l.foldl (fun m fd => FD_CLR fd m) m) = FD_ISSET h m := by
  induction l generalizing m with
  | nil => rfl
  | cons a l ih =>
    simp only [List.foldl_cons]
    rw [ih _ (fun hl => hm (List.mem_cons_of_mem _ hl))]
    have : h ≠ a := fun e => hm (e ▸ List.mem_cons_self _ _)
    simp [FD_ISSET, FD_CLR, this]

theorem drain_clears (s : ListenState) (h : Int) (hm : h ∈ s.m_staleFileDescriptors) :
    FD_ISSET h (drain s).1.masterSocketSet = false :=
  foldl_clr_of_mem _ _ _ hm

/-- C3. After the drain the stale list is empty and no drained descriptor is in
the master set; a second drain right after it closes nothing and changes
neither the master set nor the stale list, and the state an iteration of the
loop ends in has an empty stale list. -/
theorem drain_idempotent (s : ListenState) (env : Env) :
    (drain s).1.m_staleFileDescriptors = [] ∧
    (∀ h ∈ s.m_staleFileDescriptors, FD_ISSET h (drain s).1.masterSocketSet = false) ∧
    (drain s).2 = s.m_staleFileDescriptors.map Event.osClose ∧
    (drain (drain s).1).2 = [] ∧
    (drain (drain s).1).1.masterSocketSet = (drain s).1.masterSocketSet ∧
    (drain (drain s).1).1.m_staleFileDescriptors = [] ∧
    (loopIteration env s).map (fun r => r.1.m_staleFileDescriptors) =
      (loopIteration env s).map (fun _ => []) := by
  refine ⟨rfl, fun h hm => drain_clears s h hm, rfl, rfl, rfl, rfl, ?_⟩
  unfold loopIteration
  split
  · rfl
  · rfl

/-- C2, the claim fails. On the listener with live connections `4` and `5`, a second
`close( 4 )` changes the stale list, and the drain then calls `::close( 4 )` twice. -/
theorem second_close_changes_stale :
    (EventListener.close 4 (EventListener.close 4 (twoClients none none []))).m_staleFileDescriptors
        = [4, 4] ∧
    (EventListener.close 4 (twoClients none none [])).m_staleFileDescriptors = [4] ∧
    (drain (EventListener.close 4 (EventListener.close 4 (twoClients none none [])))).2
        = [Event.osClose 4, Event.osClose 4] ∧
    (drain (EventListener.close 4 (twoClients none none []))).2 = [Event.osClose 4] := by
  decide

/-- C2 as amended. A second `close( h )` leaves the live set as the first call left it
and appends `h` to the stale list once more; the drain calls `::close` once for
every entry of the stale list, so once more on `h` than after a single call. -/
theorem close_twice (s : ListenState) (h : Int) :
    (EventListener.close h (EventListener.close h s)).m_eventWorkers
        = (EventListener.close h s).m_eventWorkers ∧
    (EventListener.close h (EventListener.close h s)).m_staleFileDescriptors
        = (EventListener.close h s).m_staleFileDescriptors ++ [h] ∧
    (drain (EventListener.close h (EventListener.close h s))).2
        = (drain (EventListener.close h s)).2 ++ [Event.osClose h] ∧
    (drain (EventListener.close h (EventListener.close h s))).2.count (Event.osClose h)
        = (drain (EventListener.close h s)).2.count (Event.osClose h) + 1 := by
  refine ⟨?_, rfl, ?_, ?_⟩
  · simp [close_eventWorkers, List.filter_filter]
  · simp [drain, close_stale]
  · simp [drain, close_stale]

/-- C4, the claim fails. The listener holds the connections `4` and `5` and `5` is
already on the stale list (the state the scan is in after `accept` returned `5`
and the on-accept handler closed its connection): after `close( 4 )` the
connection `5` is found by the lookup and is on the stale list. -/
theorem close_other_still_pending :
    liveHandles (twoClients none none [5]) = [4, 5] ∧
    (findWorker 5 (EventListener.close 4 (twoClients none none [5]))).isSome = true ∧
    5 ∈ (EventListener.close 4 (twoClients none none [5])).m_staleFileDescriptors ∧
    liveHandles (scanUpTo (envOf [3, 4] 5 0) (oneClient (some closingHandler) none) 4).2.1
        = [4, 5] ∧
    (scanUpTo (envOf [3, 4] 5 0) (oneClient (some closingHandler) none) 4).2.1.m_staleFileDescriptors
        = [5] := by
  decide

/-- C4 as amended. With live connections `a ≠ b` and `b` not on the stale list before
the call, after `close( a )` the lookup of `b` gives the worker it gave before,
`b` is not on the stale list, the live set is the old one without the workers of
`a`, in the old order and shorter, and the stale list is the old one with `a`
appended. -/
theorem close_frame (s : ListenState) (a b : Int) (hab : a ≠ b)
    (ha : a ∈ liveHandles s) (hb : b ∈ liveHandles s)
    (hpend : b ∉ s.m_staleFileDescriptors) :
    findWorker b (EventListener.close a s) = findWorker b s ∧
    (findWorker b (EventListener.close a s)).isSome = true ∧
    b ∉ (EventListener.close a s).m_staleFileDescriptors ∧
    (EventListener.close a s).m_staleFileDescriptors = s.m_staleFileDescriptors ++ [a] ∧
    (EventListener.close a s).m_eventWorkers
        = s.m_eventWorkers.filter (fun w => !decide (w.fileDescriptor = a)) ∧
    List.Sublist (EventListener.close a s).m_eventWorkers s.m_eventWorkers ∧
    a ∉ liveHandles (EventListener.close a s) ∧
    (∀ c, c ≠ a → (c ∈ liveHandles (EventListener.close a s) ↔ c ∈ liveHandles s)) ∧
    (EventListener.close a s).m_eventWorkers.length < s.m_eventWorkers.length := by
  have hfind : findWorker b (EventListener.close a s) = findWorker b s := by
    unfold findWorker
    rw [close_eventWorkers]
    apply find_filter_of_imp
    intro w hw
    have hw1 : w.fileDescriptor = b := by simpa using hw
    have : ¬ w.fileDescriptor = a := fun e => hab (e.symm.trans hw1)
    simpa using this
  have hmem : ∀ c, c ≠ a →
      (c ∈ liveHandles (EventListener.close a s) ↔ c ∈ liveHandles s) := by
    intro c hc
    simp only [liveHandles, close_eventWorkers, List.mem_map, List.mem_filter]
    constructor
    · rintro ⟨w, ⟨hw, _⟩, rfl⟩
      exact ⟨w, hw, rfl⟩
    · rintro ⟨w, hw, rfl⟩
      exact ⟨w, ⟨hw, by simpa using hc⟩, rfl⟩
  have hlen : (EventListener.close a s).m_eventWorkers.length < s.m_eventWorkers.length := by
    rw [close_eventWorkers, List.length_filter_lt_length_iff_exists]
    simp only [liveHandles, List.mem_map] at ha
    obtain ⟨w, hw, hwa⟩ := ha
    exact ⟨w, hw, by simp [hwa]⟩
  refine ⟨hfind, ?_, ?_, rfl, rfl, ?_, ?_, hmem, hlen⟩
  · rw [hfind, findWorker_isSome]
    simpa [liveHandles] using hb
  · rw [close_stale]
    simp only [List.mem_append, List.mem_singleton, not_or]
    exact ⟨hpend, fun e => hab e.symm⟩
  · rw [close_eventWorkers]
    exact List.filter_sublist _
  · simp only [liveHandles, List.mem_map, not_exists, not_and]
    intro w hw e
    exact close_not_live a s w hw e

/-- The amended C4 at the listener with live connections `4` and `5` and an empty stale list. -/
theorem close_frame_witness :
    (4 : Int) ≠ 5 ∧ 4 ∈ liveHandles (twoClients none none []) ∧
    5 ∈ liveHandles (twoClients none none []) ∧
    5 ∉ (twoClients none none []).m_staleFileDescriptors ∧
    findWorker 5 (EventListener.close 4 (twoClients none none [])) =
      findWorker 5 (twoClients none none []) ∧
    (findWorker 5 (EventListener.close 4 (twoClients none none []))).isSome = true ∧
    5 ∉ (EventListener.close 4 (twoClients none none [])).m_staleFileDescriptors :=
  ⟨by decide, by decide, by decide, by decide,
    (close_frame (twoClients none none []) 4 5 (by decide) (by decide) (by decide)
      (by decide)).1,
    (close_frame (twoClients none none []) 4 5 (by decide) (by decide) (by decide)
      (by decide)).2.1,
    (close_frame (twoClients none none []) 4 5 (by decide) (by decide) (by decide)
      (by decide)).2.2.1⟩

/-! ## `EventWorker::write` and `EventWorker::read` -/

/-- What `write` hands to a transport that does not fail: the first bytes of the
data, as many as one call of `send` takes. -/
theorem write_delivers (data : List Byte) (t : Transport) (hf : t.fails = false) :
    EventWorker.write data t =
      Except.ok { t with delivered := t.delivered ++ data.take (min data.length t.perCall) } := by
  have h : ¬ ((data.length : Int) ⊓ (t.perCall : Int) = -1) := by omega
  simp [EventWorker.write, send, hf, h]

/-- C5, the code at the failing input. The five bytes of `hello` are written to a
transport that takes two bytes a call and never fails: `write` returns without
error after one `send`, and only `he` has been handed over. -/
theorem write_partial_send :
    (EventWorker.write hello { fails := false, perCall := 2, delivered := [] }).toOption.map
        (fun t => t.delivered) = some [104, 101] ∧
    hello.length = 5 := by
  decide

/-- On deliveries of 1 to 255 bytes without a zero byte, followed by the end of
the data, `read` returns their concatenation. -/
theorem readLoop_text (chunks : List (List Byte)) (message : List Byte)
    (hlen : ∀ c ∈ chunks, 0 < c.length ∧ c.length < bufferSize)
    (hnul : ∀ c ∈ chunks, ∀ b ∈ c, b ≠ 0) :
    readLoop chunks message = some (message ++ chunks.flatten) := by
  induction chunks generalizing message with
  | nil => simp [readLoop]
  | cons c rest ih =>
    have hc := hlen c (List.mem_cons_self _ _)
    have htake : c.take bufferSize = c := List.take_of_length_le (by omega)
    have hcs : cString c = c := by
      unfold cString
      rw [List.takeWhile_eq_self_iff]
      intro b hb
      simpa using hnul c (List.mem_cons_self _ _) b hb
    have h0 : ¬ c.length = 0 := by omega
    have h1 : ¬ bufferSize ≤ c.length := by omega
    simp only [readLoop, htake, h0, h1, if_false, hcs]
    rw [ih _ (fun d hd => hlen d (List.mem_cons_of_mem _ hd))
      (fun d hd => hnul d (List.mem_cons_of_mem _ hd))]
    simp

/-- C6, the code at the failing inputs. A delivery `h`, zero byte, `i` is returned as
`h` alone; a delivery that fills the 256-byte buffer makes the loop store at
`buffer[256]`; the single delivery `hello` is returned whole, and no delivery
gives the empty string. -/
theorem read_loses_bytes :
    EventWorker.read [[104, 0, 105]] = some [104] ∧
    EventWorker.read [List.replicate 256 97] = none ∧
    EventWorker.read [hello] = some hello ∧
    EventWorker.read [] = some [] := by
  refine ⟨by decide, ?_, by decide, by decide⟩
  have hlen : ((List.replicate 256 (97 : Byte)).take bufferSize).length = 256 := by
    rw [List.length_take, List.length_replicate]
    rfl
  unfold EventWorker.read readLoop
  simp only [hlen]
  rfl

/-! ## Evaluations of the loop -/

/-- C9, the code at the failing input. The listening socket `3` is ready, `accept`
returns `4` and the on-accept handler closes the connection it is handed. After
the scan `4` is in the live set and on the stale list; after the drain
`::close( 4 )` has been called and `4` is still in the live set. -/
theorem accept_then_close_breaks_invariant :
    liveHandles (scan (envOf [3] 4 1) (listenInit 3 (some closingHandler) none)).2.1 = [4] ∧
    (scan (envOf [3] 4 1) (listenInit 3 (some closingHandler) none)).2.1.m_staleFileDescriptors
        = [4] ∧
    (loopIteration (envOf [3] 4 1) (listenInit 3 (some closingHandler) none)).map
        (fun r => (liveHandles r.1, r.1.m_staleFileDescriptors, r.2, FD_ISSET 4 r.1.masterSocketSet))
      = some ([4], [],
          [Event.accepted 4, Event.dispatchAccept 4, Event.scheduled 4, Event.joined 4,
            Event.osClose 4], false) := by
  decide

/-- C10, the code at the failing input. The connections `4` and `5` are ready with data
and an on-read handler is bound: the handler of `4` has finished, its `close`
included, before the loop peeks at `5`. -/
theorem loop_waits_for_handler :
    (loopIteration (envOf [4, 5] (-1) 1) (twoClients none (some closingHandler) [])).map
        (fun r => r.2)
      = some [Event.peek 4, Event.dispatchRead 4, Event.scheduled 4, Event.joined 4,
          Event.peek 5, Event.dispatchRead 5, Event.scheduled 5, Event.joined 5,
          Event.osClose 4, Event.osClose 5] := by
  decide

/-- C8, the claim fails. The listening socket `3` and the connection `4`, whose peer has
closed, are ready. When `accept` returns `-1` the scan ends at `3`: `4` is not
peeked and stays live; when `accept` returns `5` instead, `4` is peeked,
closed and drained. -/
theorem failed_accept_skips_clients :
    (loopIteration (envOf [3, 4] (-1) 0) (oneClient none none)).map
        (fun r => (liveHandles r.1, r.2, FD_ISSET 4 r.1.masterSocketSet))
      = some ([4], [Event.accepted (-1)], true) ∧
    (loopIteration (envOf [3, 4] 5 0) (oneClient none none)).map
        (fun r => (liveHandles r.1, r.2, FD_ISSET 4 r.1.masterSocketSet))
      = some ([5], [Event.accepted 5, Event.peek 4, Event.scheduled 4, Event.osClose 4],
          false) := by
  decide

/-! ## Steps of the scan -/

theorem Keeps.refl (s : ListenState) : Keeps s s :=
  ⟨rfl, rfl, rfl, rfl, fun _ hx => hx⟩

theorem Keeps.trans {s t u : ListenState} (h1 : Keeps s t) (h2 : Keeps t u) : Keeps s u :=
  ⟨h2.1.trans h1.1, h2.2.1.trans h1.2.1, h2.2.2.1.trans h1.2.2.1,
    h2.2.2.2.1.trans h1.2.2.2.1, fun x hx => h2.2.2.2.2 x (h1.2.2.2.2 x hx)⟩

theorem keeps_close (h : Int) (s : ListenState) : Keeps s (EventListener.close h s) :=
  ⟨rfl, rfl, rfl, rfl, fun x hx => by rw [close_stale]; exact List.mem_append_left _ hx⟩

theorem keeps_runHandler (f : Handler) (w : EventWorker) (n : Nat) (s : ListenState) :
    Keeps s (runHandler f w n s) := by
  induction n generalizing s with
  | zero => exact Keeps.refl s
  | succ n ih => exact (keeps_close _ s).trans (ih _)

theorem runHandler_master (f : Handler) (w : EventWorker) (n : Nat) (s : ListenState) :
    (runHandler f w n s).masterSocketSet = s.masterSocketSet ∧
    (runHandler f w n s).newHighestFileDescriptor = s.newHighestFileDescriptor := by
  induction n generalizing s with
  | zero => exact ⟨rfl, rfl⟩
  | succ n ih => exact ih _

theorem runHandler_stale (f : Handler) (w : EventWorker) (n : Nat) (s : ListenState) :
    (runHandler f w n s).m_staleFileDescriptors =
      s.m_staleFileDescriptors ++ List.replicate n w.fileDescriptor := by
  induction n generalizing s with
  | zero => simp [runHandler]
  | succ n ih =>
    rw [runHandler, ih, EventWorker.close, close_stale, List.replicate_succ]
    simp [EventWorker.fileDescriptor]

theorem runHandler_sublist (f : Handler) (w : EventWorker) (n : Nat) (s : ListenState) :
    List.Sublist (runHandler f w n s).m_eventWorkers s.m_eventWorkers := by
  induction n generalizing s with
  | zero => exact List.Sublist.refl _
  | succ n ih =>
    refine (ih _).trans ?_
    rw [EventWorker.close, close_eventWorkers]
    exact List.filter_sublist _

theorem close_live_other (h c : Int) (s : ListenState) (hc : c ≠ h) :
    c ∈ liveHandles (EventListener.close h s) ↔ c ∈ liveHandles s := by
  simp only [liveHandles, close_eventWorkers, List.mem_map, List.mem_filter]
  constructor
  · rintro ⟨w, ⟨hw, _⟩, rfl⟩
    exact ⟨w, hw, rfl⟩
  · rintro ⟨w, hw, rfl⟩
    exact ⟨w, ⟨hw, by simpa using hc⟩, rfl⟩

theorem runHandler_live_other (f : Handler) (w : EventWorker) (n : Nat) (s : ListenState)
    (c : Int) (hc : c ≠ w.fileDescriptor) :
    c ∈ liveHandles (runHandler f w n s) ↔ c ∈ liveHandles s := by
  induction n generalizing s with
  | zero => exact Iff.rfl
  | succ n ih =>
    rw [runHandler, ih, EventWorker.close]
    exact close_live_other _ _ _ hc

theorem findWorker_fd {i : Int} {s : ListenState} {w : EventWorker}
    (hw : findWorker i s = some w) : w.fileDescriptor = i := by
  have := List.find?_some hw
  simpa using this

/-- The three ways through the branch of a known client socket. -/
theorem clientBranch_cases (env : Env) (i : Int) (s : ListenState) :
    (env.peekResult i ≤ 0 ∧
      clientBranch env i s = (EventListener.close i s, [Event.peek i, Event.scheduled i])) ∨
    (0 < env.peekResult i ∧ ∃ w f, findWorker i s = some w ∧ w.fileDescriptor = i ∧
      s.m_handleRead = some f ∧
      clientBranch env i s = (runHandler f w (f w) s,
        Event.peek i :: Event.dispatchRead i ::
          (List.replicate (f w) (Event.scheduled i) ++ [Event.joined i]))) ∨
    (0 < env.peekResult i ∧ (findWorker i s = none ∨ s.m_handleRead = none) ∧
      clientBranch env i s = (s, [Event.peek i])) := by
  by_cases hp : env.peekResult i ≤ 0
  · left
    exact ⟨hp, by simp [clientBranch, hp]⟩
  · right
    have hp1 : 0 < env.peekResult i := by omega
    cases hw : findWorker i s with
    | none =>
      right
      exact ⟨hp1, Or.inl rfl, by simp [clientBranch, hp, hw]⟩
    | some w =>
      cases hf : s.m_handleRead with
      | none =>
        right
        exact ⟨hp1, Or.inr rfl, by simp [clientBranch, hp, hw, hf]⟩
      | some f =>
        left
        have hfd := findWorker_fd hw
        refine ⟨hp1, w, f, rfl, hfd, rfl, ?_⟩
        simp [clientBranch, hp, hw, hf, dispatch, Slot.event, hfd]

theorem keeps_watchClient (fd : Int) (s : ListenState) : Keeps s (watchClient fd s) :=
  ⟨rfl, rfl, rfl, rfl, fun _ hx => hx⟩

/-- The worker made for the descriptor that `accept` returned. -/
theorem acceptBranch_cases (env : Env) (s : ListenState) :
    (env.acceptResult = -1 ∧
      acceptBranch env s = (Flow.brk, s, [Event.accepted (-1)])) ∨
    (env.acceptResult ≠ -1 ∧ ∃ f, s.m_handleAccept = some f ∧
      acceptBranch env s = (Flow.next,
        { runHandler f { m_fileDescriptor := env.acceptResult }
              (f { m_fileDescriptor := env.acceptResult }) (watchClient env.acceptResult s) with
          m_eventWorkers :=
            (runHandler f { m_fileDescriptor := env.acceptResult }
              (f { m_fileDescriptor := env.acceptResult })
              (watchClient env.acceptResult s)).m_eventWorkers ++
              [{ m_fileDescriptor := env.acceptResult }] },
        Event.accepted env.acceptResult :: Event.dispatchAccept env.acceptResult ::
          (List.replicate (f { m_fileDescriptor := env.acceptResult })
            (Event.scheduled env.acceptResult) ++ [Event.joined env.acceptResult]))) ∨
    (env.acceptResult ≠ -1 ∧ s.m_handleAccept = none ∧
      acceptBranch env s = (Flow.next,
        { watchClient env.acceptResult s with
          m_eventWorkers := s.m_eventWorkers ++ [{ m_fileDescriptor := env.acceptResult }] },
        [Event.accepted env.acceptResult])) := by
  by_cases ha : env.acceptResult = -1
  · left
    exact ⟨ha, by simp [acceptBranch, ha]⟩
  · right
    cases hf : s.m_handleAccept with
    | none =>
      right
      refine ⟨ha, rfl, ?_⟩
      simp [acceptBranch, ha, hf, watchClient]
    | some f =>
      left
      refine ⟨ha, f, rfl, ?_⟩
      simp [acceptBranch, ha, hf, dispatch, Slot.event, EventWorker.fileDescriptor, watchClient]

/-- The three ways through the body of the `for` loop. -/
theorem scanBody_cases (env : Env) (cs : fd_set) (i : Int) (s : ListenState) :
    (FD_ISSET i cs = false ∧ scanBody env cs i s = (Flow.next, s, [])) ∨
    (FD_ISSET i cs = true ∧ i = s.m_socket ∧ scanBody env cs i s = acceptBranch env s) ∨
    (FD_ISSET i cs = true ∧ i ≠ s.m_socket ∧
      scanBody env cs i s = (Flow.next, (clientBranch env i s).1, (clientBranch env i s).2)) := by
  cases hr : FD_ISSET i cs with
  | false =>
    left
    exact ⟨rfl, by simp [scanBody, hr]⟩
  | true =>
    right
    by_cases hm : i = s.m_socket
    · left
      exact ⟨rfl, hm, by simp [scanBody, hr, ← hm]⟩
    · right
      exact ⟨rfl, hm, by simp [scanBody, hr, hm]⟩

/-! ## Event lists -/

theorem isDispatchFor_iff (h : Int) (e : Event) :
    e.isDispatchFor h = true ↔ e = Event.dispatchAccept h ∨ e = Event.dispatchRead h := by
  cases e <;> simp [Event.isDispatchFor]

theorem quiet_of_no_dispatch (h : Int) (l : List Event)
    (hl : ∀ e ∈ l, e.isDispatchFor h = false) : noDispatchAfterClose h l = true := by
  induction l with
  | nil => rfl
  | cons a l ih =>
    have hrest : ∀ e ∈ l, e.isDispatchFor h = false :=
      fun e he => hl e (List.mem_cons_of_mem _ he)
    simp only [noDispatchAfterClose, Bool.and_eq_true, Bool.or_eq_true, List.all_eq_true]
    refine ⟨Or.inr ?_, ih hrest⟩
    intro e he
    simp [hrest e he]

theorem quiet_of_not_scheduled (h : Int) (l : List Event)
    (hl : Event.scheduled h ∉ l) : noDispatchAfterClose h l = true := by
  induction l with
  | nil => rfl
  | cons a l ih =>
    have ha : a ≠ Event.scheduled h := fun e => hl (e ▸ List.mem_cons_self _ _)
    simp only [noDispatchAfterClose, Bool.and_eq_true, Bool.or_eq_true]
    exact ⟨Or.inl (by simpa using ha), ih (fun hm => hl (List.mem_cons_of_mem _ hm))⟩

theorem quiet_cons (h : Int) (a : Event) (l : List Event) :
    noDispatchAfterClose h (a :: l) = true ↔
      (a = Event.scheduled h → ∀ e ∈ l, e.isDispatchFor h = false) ∧
        noDispatchAfterClose h l = true := by
  rw [noDispatchAfterClose]
  simp only [Bool.and_eq_true, Bool.or_eq_true, List.all_eq_true, Bool.not_eq_true',
    decide_eq_false_iff_not]
  constructor
  · rintro ⟨h1, h2⟩
    refine ⟨fun ha e he => ?_, h2⟩
    rcases h1 with h1 | h1
    · exact absurd ha h1
    · exact h1 e he
  · rintro ⟨h1, h2⟩
    refine ⟨?_, h2⟩
    by_cases ha : a = Event.scheduled h
    · exact Or.inr (h1 ha)
    · exact Or.inl ha

theorem quiet_append (h : Int) (l1 l2 : List Event) :
    noDispatchAfterClose h (l1 ++ l2) = true ↔
      noDispatchAfterClose h l1 = true ∧ noDispatchAfterClose h l2 = true ∧
        (Event.scheduled h ∈ l1 → ∀ e ∈ l2, e.isDispatchFor h = false) := by
  induction l1 with
  | nil => simp [noDispatchAfterClose]
  | cons a l ih =>
    rw [List.cons_append, quiet_cons, quiet_cons, ih]
    constructor
    · rintro ⟨h1, h2, h3, h4⟩
      refine ⟨⟨fun ha e he => h1 ha e (List.mem_append_left _ he), h2⟩, h3, fun hm e he => ?_⟩
      rcases List.mem_cons.1 hm with hm | hm
      · exact h1 hm.symm e (List.mem_append_right _ he)
      · exact h4 hm e he
    · rintro ⟨⟨h1, h2⟩, h3, h4⟩
      refine ⟨fun ha e he => ?_, h2, h3, fun hm => h4 (List.mem_cons_of_mem _ hm)⟩
      rcases List.mem_append.1 he with he | he
      · exact h1 ha e he
      · exact h4 (ha ▸ List.mem_cons_self _ _) e he

/-! ## One pass through the body of the scan -/

theorem keeps_clientBranch (env : Env) (i : Int) (s : ListenState) :
    Keeps s (clientBranch env i s).1 := by
  rcases clientBranch_cases env i s with ⟨_, h⟩ | ⟨_, w, f, _, _, _, h⟩ | ⟨_, _, h⟩
  · rw [h]; exact keeps_close i s
  · rw [h]; exact keeps_runHandler f w _ s
  · rw [h]; exact Keeps.refl s

theorem keeps_acceptBranch (env : Env) (s : ListenState) :
    Keeps s (acceptBranch env s).2.1 := by
  rcases acceptBranch_cases env s with ⟨_, h⟩ | ⟨_, f, _, h⟩ | ⟨_, _, h⟩
  · rw [h]; exact Keeps.refl s
  · rw [h]
    have k := (keeps_watchClient env.acceptResult s).trans
      (keeps_runHandler f { m_fileDescriptor := env.acceptResult }
        (f { m_fileDescriptor := env.acceptResult }) (watchClient env.acceptResult s))
    exact ⟨k.1, k.2.1, k.2.2.1, k.2.2.2.1, k.2.2.2.2⟩
  · rw [h]; exact ⟨rfl, rfl, rfl, rfl, fun _ hx => hx⟩

theorem keeps_scanBody (env : Env) (cs : fd_set) (i : Int) (s : ListenState) :
    Keeps s (scanBody env cs i s).2.1 := by
  rcases scanBody_cases env cs i s with ⟨_, h⟩ | ⟨_, _, h⟩ | ⟨_, _, h⟩
  · rw [h]; exact Keeps.refl s
  · rw [h]; exact keeps_acceptBranch env s
  · rw [h]; exact keeps_clientBranch env i s

/-- The body leaves the `for` loop only through the `break` after a failed `accept`. -/
theorem scanBody_brk (env : Env) (cs : fd_set) (i : Int) (s : ListenState)
    (hb : (scanBody env cs i s).1 = Flow.brk) :
    FD_ISSET i cs = true ∧ i = s.m_socket ∧ env.acceptResult = -1 ∧
      scanBody env cs i s = (Flow.brk, s, [Event.accepted (-1)]) := by
  rcases scanBody_cases env cs i s with ⟨_, h⟩ | ⟨hr, hm, h⟩ | ⟨_, _, h⟩
  · rw [h] at hb; simp at hb
  · rcases acceptBranch_cases env s with ⟨ha, h2⟩ | ⟨_, f, _, h2⟩ | ⟨_, _, h2⟩
    · exact ⟨hr, hm, ha, h.trans h2⟩
    · rw [h, h2] at hb; simp at hb
    · rw [h, h2] at hb; simp at hb
  · rw [h] at hb; simp at hb

/-- A peek or a read dispatch on `h` is made only by the pass for descriptor `h`,
in the branch of a known client socket. -/
theorem body_client_event (env : Env) (cs : fd_set) (i h : Int) (s : ListenState) (e : Event)
    (he : e ∈ (scanBody env cs i s).2.2) (hk : e = Event.peek h ∨ e = Event.dispatchRead h) :
    FD_ISSET i cs = true ∧ i = h ∧ h ≠ s.m_socket ∧
      scanBody env cs i s = (Flow.next, (clientBranch env i s).1, (clientBranch env i s).2) := by
  rcases scanBody_cases env cs i s with ⟨_, h1⟩ | ⟨_, _, h1⟩ | ⟨hr, hm, h1⟩
  · rw [h1] at he; simp at he
  · rw [h1] at he
    rcases acceptBranch_cases env s with ⟨_, h2⟩ | ⟨_, f, _, h2⟩ | ⟨_, _, h2⟩ <;>
      rw [h2] at he <;> rcases hk with rfl | rfl <;> simp [List.mem_replicate] at he
  · refine ⟨hr, ?_, ?_, h1⟩
    · rw [h1] at he
      rcases clientBranch_cases env i s with ⟨_, h2⟩ | ⟨_, w, f, _, _, _, h2⟩ | ⟨_, _, h2⟩ <;>
        rw [h2] at he <;> rcases hk with rfl | rfl <;>
        simp [List.mem_replicate] at he <;> omega
    · rw [h1] at he
      have : i = h := by
        rcases clientBranch_cases env i s with ⟨_, h2⟩ | ⟨_, w, f, _, _, _, h2⟩ | ⟨_, _, h2⟩ <;>
          rw [h2] at he <;> rcases hk with rfl | rfl <;>
          simp [List.mem_replicate] at he <;> omega
      exact this ▸ hm

/-- An accept dispatch on `h` is made only by the pass for the listening socket,
when `accept` returned `h`. -/
theorem body_dispatchAccept (env : Env) (cs : fd_set) (i h : Int) (s : ListenState)
    (he : Event.dispatchAccept h ∈ (scanBody env cs i s).2.2) :
    FD_ISSET i cs = true ∧ i = s.m_socket ∧ env.acceptResult = h := by
  rcases scanBody_cases env cs i s with ⟨_, h1⟩ | ⟨hr, hm, h1⟩ | ⟨_, _, h1⟩
  · rw [h1] at he; simp at he
  · rw [h1] at he
    refine ⟨hr, hm, ?_⟩
    rcases acceptBranch_cases env s with ⟨_, h2⟩ | ⟨_, f, _, h2⟩ | ⟨_, _, h2⟩ <;>
      rw [h2] at he <;> simp [List.mem_replicate] at he
    omega
  · rw [h1] at he
    rcases clientBranch_cases env i s with ⟨_, h2⟩ | ⟨_, w, f, _, _, _, h2⟩ | ⟨_, _, h2⟩ <;>
      rw [h2] at he <;> simp [List.mem_replicate] at he

/-- A call `close( h )` is made by the pass for descriptor `h` or, on the descriptor
that `accept` returned, by the pass for the listening socket. -/
theorem body_scheduled (env : Env) (cs : fd_set) (i h : Int) (s : ListenState)
    (he : Event.scheduled h ∈ (scanBody env cs i s).2.2) :
    FD_ISSET i cs = true ∧
      ((i = h ∧ h ≠ s.m_socket) ∨ (i = s.m_socket ∧ env.acceptResult = h)) := by
  rcases scanBody_cases env cs i s with ⟨_, h1⟩ | ⟨hr, hm, h1⟩ | ⟨hr, hm, h1⟩
  · rw [h1] at he; simp at he
  · rw [h1] at he
    refine ⟨hr, Or.inr ⟨hm, ?_⟩⟩
    rcases acceptBranch_cases env s with ⟨_, h2⟩ | ⟨_, f, _, h2⟩ | ⟨_, _, h2⟩ <;>
      rw [h2] at he <;> simp [List.mem_replicate] at he
    omega
  · rw [h1] at he
    have : i = h := by
      rcases clientBranch_cases env i s with ⟨_, h2⟩ | ⟨_, w, f, _, _, _, h2⟩ | ⟨_, _, h2⟩ <;>
        rw [h2] at he <;> simp [List.mem_replicate] at he <;> omega
    exact ⟨hr, Or.inl ⟨this, this ▸ hm⟩⟩

/-- Within one pass no dispatch follows a call of `close`. -/
theorem body_quiet (env : Env) (cs : fd_set) (i h : Int) (s : ListenState) :
    noDispatchAfterClose h (scanBody env cs i s).2.2 = true := by
  have tail : ∀ (a b : Event) (n : Nat) (c d : Event),
      (∀ k, c ≠ Event.dispatchAccept k ∧ c ≠ Event.dispatchRead k) →
      (∀ k, d ≠ Event.dispatchAccept k ∧ d ≠ Event.dispatchRead k) →
      (∀ k, a ≠ Event.scheduled k) → (∀ k, b ≠ Event.scheduled k) →
      noDispatchAfterClose h (a :: b :: (List.replicate n c ++ [d])) = true := by
    intro a b n c d hc hd ha hb
    have e : a :: b :: (List.replicate n c ++ [d]) = [a, b] ++ (List.replicate n c ++ [d]) := rfl
    rw [e, quiet_append]
    refine ⟨quiet_of_not_scheduled _ _ ?_, quiet_of_no_dispatch _ _ ?_, ?_⟩
    · simp only [List.mem_cons, List.mem_singleton, List.not_mem_nil, or_false, not_or]
      exact ⟨fun x => ha h x.symm, fun x => hb h x.symm⟩
    · intro x hx
      cases hx2 : x.isDispatchFor h with
      | false => rfl
      | true =>
        rw [isDispatchFor_iff] at hx2
        simp only [List.mem_append, List.mem_replicate, List.mem_singleton] at hx
        rcases hx with ⟨_, rfl⟩ | rfl
        · rcases hx2 with hx2 | hx2
          · exact absurd hx2 (hc h).1
          · exact absurd hx2 (hc h).2
        · rcases hx2 with hx2 | hx2
          · exact absurd hx2 (hd h).1
          · exact absurd hx2 (hd h).2
    · intro hm
      simp only [List.mem_cons, List.mem_singleton, List.not_mem_nil, or_false] at hm
      rcases hm with hm | hm
      · exact absurd hm.symm (ha h)
      · exact absurd hm.symm (hb h)
  rcases scanBody_cases env cs i s with ⟨_, h1⟩ | ⟨_, _, h1⟩ | ⟨_, _, h1⟩
  · rw [h1]; rfl
  · rw [h1]
    rcases acceptBranch_cases env s with ⟨_, h2⟩ | ⟨_, f, _, h2⟩ | ⟨_, _, h2⟩ <;> rw [h2]
    · exact quiet_of_no_dispatch _ _ (by simp [Event.isDispatchFor])
    · exact tail _ _ _ _ _ (by simp) (by simp) (by simp) (by simp)
    · exact quiet_of_no_dispatch _ _ (by simp [Event.isDispatchFor])
  · rw [h1]
    rcases clientBranch_cases env i s with ⟨_, h2⟩ | ⟨_, w, f, _, _, _, h2⟩ | ⟨_, _, h2⟩ <;> rw [h2]
    · exact quiet_of_no_dispatch _ _ (by simp [Event.isDispatchFor])
    · exact tail _ _ _ _ _ (by simp) (by simp) (by simp) (by simp)
    · exact quiet_of_no_dispatch _ _ (by simp [Event.isDispatchFor])

/-! ## The `for` loop -/

theorem scanFor_succ_cases (env : Env) (cs : fd_set) (n : Nat) (i : Int) (s : ListenState) :
    ((scanBody env cs i s).1 = Flow.brk ∧
      scanFor env cs (n + 1) i s = scanBody env cs i s) ∨
    ((scanBody env cs i s).1 = Flow.next ∧
      scanFor env cs (n + 1) i s =
        ((scanFor env cs n (i + 1) (scanBody env cs i s).2.1).1,
          (scanFor env cs n (i + 1) (scanBody env cs i s).2.1).2.1,
          (scanBody env cs i s).2.2 ++ (scanFor env cs n (i + 1) (scanBody env cs i s).2.1).2.2)) := by
  rcases hb : scanBody env cs i s with ⟨fl, s1, ev⟩
  cases fl with
  | brk => left; exact ⟨rfl, by simp [scanFor, hb]⟩
  | next => right; exact ⟨rfl, by simp [scanFor, hb]⟩

theorem keeps_scanFor (env : Env) (cs : fd_set) (n : Nat) (i : Int) (s : ListenState) :
    Keeps s (scanFor env cs n i s).2.1 := by
  induction n generalizing i s with
  | zero => exact Keeps.refl s
  | succ n ih =>
    rcases scanFor_succ_cases env cs n i s with ⟨_, h1⟩ | ⟨_, h1⟩
    · rw [h1]; exact keeps_scanBody env cs i s
    · rw [h1]; exact (keeps_scanBody env cs i s).trans (ih _ _)

/-- The scan is cut short only at the listening socket, ready, with a failed `accept`. -/
theorem scanFor_brk (env : Env) (cs : fd_set) (n : Nat) (i : Int) (s : ListenState)
    (hb : (scanFor env cs n i s).1 = Flow.brk) :
    i ≤ s.m_socket ∧ s.m_socket < i + n ∧ FD_ISSET s.m_socket cs = true ∧
      env.acceptResult = -1 := by
  induction n generalizing i s with
  | zero => simp [scanFor] at hb
  | succ n ih =>
    rcases scanFor_succ_cases env cs n i s with ⟨h0, h1⟩ | ⟨_, h1⟩
    · obtain ⟨hr, hm, ha, _⟩ := scanBody_brk env cs i s h0
      refine ⟨by omega, ?_, hm ▸ hr, ha⟩
      push_cast
      omega
    · rw [h1] at hb
      obtain ⟨h2, h3, h4, h5⟩ := ih _ _ hb
      rw [(keeps_scanBody env cs i s).1] at h2 h3 h4
      refine ⟨by omega, ?_, h4, h5⟩
      push_cast
      omega

theorem scanFor_client_event (env : Env) (cs : fd_set) (n : Nat) (i h : Int) (s : ListenState)
    (e : Event) (he : e ∈ (scanFor env cs n i s).2.2)
    (hk : e = Event.peek h ∨ e = Event.dispatchRead h) :
    i ≤ h ∧ h < i + n ∧ FD_ISSET h cs = true ∧ h ≠ s.m_socket := by
  induction n generalizing i s with
  | zero => simp [scanFor] at he
  | succ n ih =>
    have body : e ∈ (scanBody env cs i s).2.2 →
        i ≤ h ∧ h < i + (n + 1 : Nat) ∧ FD_ISSET h cs = true ∧ h ≠ s.m_socket := by
      intro hb
      obtain ⟨hr, hi, hm, _⟩ := body_client_event env cs i h s e hb hk
      refine ⟨by omega, ?_, hi ▸ hr, hm⟩
      push_cast
      omega
    rcases scanFor_succ_cases env cs n i s with ⟨_, h1⟩ | ⟨_, h1⟩
    · rw [h1] at he; exact body he
    · rw [h1] at he
      rcases List.mem_append.1 he with he | he
      · exact body he
      · obtain ⟨h2, h3, h4, h5⟩ := ih _ _ he
        rw [(keeps_scanBody env cs i s).1] at h5
        refine ⟨by omega, ?_, h4, h5⟩
        push_cast
        omega

theorem scanFor_dispatchAccept (env : Env) (cs : fd_set) (n : Nat) (i h : Int)
    (s : ListenState) (he : Event.dispatchAccept h ∈ (scanFor env cs n i s).2.2) :
    i ≤ s.m_socket ∧ s.m_socket < i + n ∧ FD_ISSET s.m_socket cs = true ∧
      env.acceptResult = h := by
  induction n generalizing i s with
  | zero => simp [scanFor] at he
  | succ n ih =>
    have body : Event.dispatchAccept h ∈ (scanBody env cs i s).2.2 →
        i ≤ s.m_socket ∧ s.m_socket < i + (n + 1 : Nat) ∧ FD_ISSET s.m_socket cs = true ∧
          env.acceptResult = h := by
      intro hb
      obtain ⟨hr, hm, ha⟩ := body_dispatchAccept env cs i h s hb
      refine ⟨by omega, ?_, hm ▸ hr, ha⟩
      push_cast
      omega
    rcases scanFor_succ_cases env cs n i s with ⟨_, h1⟩ | ⟨_, h1⟩
    · rw [h1] at he; exact body he
    · rw [h1] at he
      rcases List.mem_append.1 he with he | he
      · exact body he
      · obtain ⟨h2, h3, h4, h5⟩ := ih _ _ he
        rw [(keeps_scanBody env cs i s).1] at h2 h3 h4
        refine ⟨by omega, ?_, h4, h5⟩
        push_cast
        omega

theorem scanFor_scheduled (env : Env) (cs : fd_set) (n : Nat) (i h : Int)
    (s : ListenState) (he : Event.scheduled h ∈ (scanFor env cs n i s).2.2) :
    (i ≤ h ∧ h < i + n ∧ FD_ISSET h cs = true ∧ h ≠ s.m_socket) ∨
    (i ≤ s.m_socket ∧ s.m_socket < i + n ∧ FD_ISSET s.m_socket cs = true ∧
      env.acceptResult = h) := by
  induction n generalizing i s with
  | zero => simp [scanFor] at he
  | succ n ih =>
    have body : Event.scheduled h ∈ (scanBody env cs i s).2.2 →
        (i ≤ h ∧ h < i + (n + 1 : Nat) ∧ FD_ISSET h cs = true ∧ h ≠ s.m_socket) ∨
        (i ≤ s.m_socket ∧ s.m_socket < i + (n + 1 : Nat) ∧ FD_ISSET s.m_socket cs = true ∧
          env.acceptResult = h) := by
      intro hb
      obtain ⟨hr, hc | hc⟩ := body_scheduled env cs i h s hb
      · left
        refine ⟨by omega, ?_, hc.1 ▸ hr, hc.2⟩
        push_cast
        omega
      · right
        refine ⟨by omega, ?_, hc.1 ▸ hr, hc.2⟩
        push_cast
        omega
    rcases scanFor_succ_cases env cs n i s with ⟨_, h1⟩ | ⟨_, h1⟩
    · rw [h1] at he; exact body he
    · rw [h1] at he
      rcases List.mem_append.1 he with he | he
      · exact body he
      · rcases ih _ _ he with ⟨h2, h3, h4, h5⟩ | ⟨h2, h3, h4, h5⟩
        · rw [(keeps_scanBody env cs i s).1] at h5
          left
          refine ⟨by omega, ?_, h4, h5⟩
          push_cast
          omega
        · rw [(keeps_scanBody env cs i s).1] at h2 h3 h4
          right
          refine ⟨by omega, ?_, h4, h5⟩
          push_cast
          omega

/-- In a scan whose readiness set does not hold the descriptor that `accept`
returns, no dispatch on `h` follows a call `close( h )`. -/
theorem scanFor_quiet (env : Env) (cs : fd_set) (n : Nat) (i h : Int) (s : ListenState)
    (hfresh : FD_ISSET env.acceptResult cs = false) :
    noDispatchAfterClose h (scanFor env cs n i s).2.2 = true := by
  induction n generalizing i s with
  | zero => rfl
  | succ n ih =>
    rcases scanFor_succ_cases env cs n i s with ⟨_, h1⟩ | ⟨_, h1⟩
    · rw [h1]; exact body_quiet env cs i h s
    · rw [h1, quiet_append]
      refine ⟨body_quiet env cs i h s, ih _ _, ?_⟩
      intro hsch e he
      have hsock := (keeps_scanBody env cs i s).1
      cases hd : e.isDispatchFor h with
      | false => rfl
      | true =>
        exfalso
        rw [isDispatchFor_iff] at hd
        obtain ⟨hr, hc | hc⟩ := body_scheduled env cs i h s hsch
        · -- the pass for `h` itself closed `h`
          rcases hd with hd | hd
          · subst hd
            obtain ⟨_, _, _, h5⟩ := scanFor_dispatchAccept env cs n (i + 1) h _ he
            rw [h5, ← hc.1, hr] at hfresh
            exact absurd hfresh (by decide)
          · obtain ⟨h2, _, _, _⟩ := scanFor_client_event env cs n (i + 1) h _ e he (Or.inr hd)
            omega
        · -- the on-accept handler closed the descriptor `accept` returned
          rcases hd with hd | hd
          · subst hd
            obtain ⟨h2, _, _, _⟩ := scanFor_dispatchAccept env cs n (i + 1) h _ he
            rw [hsock] at h2
            omega
          · obtain ⟨_, _, h4, _⟩ := scanFor_client_event env cs n (i + 1) h _ e he (Or.inr hd)
            rw [← hc.2, hfresh] at h4
            exact absurd h4 (by decide)

/-- The loop over `a + b` descriptors is the loop over the first `a`, followed,
unless it was cut short, by the loop over the next `b`. -/
theorem scanFor_add (env : Env) (cs : fd_set) (a b : Nat) (i : Int) (s : ListenState) :
    ((scanFor env cs a i s).1 = Flow.brk ∧
      scanFor env cs (a + b) i s = scanFor env cs a i s) ∨
    ((scanFor env cs a i s).1 = Flow.next ∧
      scanFor env cs (a + b) i s =
        ((scanFor env cs b (i + a) (scanFor env cs a i s).2.1).1,
          (scanFor env cs b (i + a) (scanFor env cs a i s).2.1).2.1,
          (scanFor env cs a i s).2.2 ++
            (scanFor env cs b (i + a) (scanFor env cs a i s).2.1).2.2)) := by
  induction a generalizing i s with
  | zero =>
    right
    refine ⟨rfl, ?_⟩
    simp [scanFor]
  | succ a ih =>
    have e : a + 1 + b = (a + b) + 1 := by omega
    rw [e]
    rcases scanFor_succ_cases env cs a i s with ⟨h0, h1⟩ | ⟨h0, h1⟩
    · left
      rcases scanFor_succ_cases env cs (a + b) i s with ⟨_, h2⟩ | ⟨h3, _⟩
      · exact ⟨by rw [h1]; exact h0, by rw [h1, h2]⟩
      · rw [h0] at h3; exact absurd h3 (by decide)
    · rcases scanFor_succ_cases env cs (a + b) i s with ⟨h3, _⟩ | ⟨_, h2⟩
      · rw [h0] at h3; exact absurd h3 (by decide)
      · have hi : i + ((a + 1 : Nat) : Int) = i + 1 + (a : Int) := by push_cast; omega
        rcases ih (i + 1) (scanBody env cs i s).2.1 with ⟨h4, h5⟩ | ⟨h4, h5⟩
        · left
          refine ⟨by rw [h1]; exact h4, ?_⟩
          rw [h1, h2, h5]
        · right
          refine ⟨by rw [h1]; exact h4, ?_⟩
          rw [h1, h2, h5, hi]
          simp [List.append_assoc]

/-- The scan makes no call of `::close`. -/
theorem scanFor_no_osClose (env : Env) (cs : fd_set) (n : Nat) (i j : Int) (s : ListenState) :
    Event.osClose j ∉ (scanFor env cs n i s).2.2 := by
  induction n generalizing i s with
  | zero => simp [scanFor]
  | succ n ih =>
    intro hm
    have hbody : Event.osClose j ∉ (scanBody env cs i s).2.2 := by
      intro hm3
      rcases scanBody_cases env cs i s with ⟨_, h1⟩ | ⟨_, _, h1⟩ | ⟨_, _, h1⟩
      · rw [h1] at hm3; simp at hm3
      · rw [h1] at hm3
        rcases acceptBranch_cases env s with ⟨_, h2⟩ | ⟨_, f, _, h2⟩ | ⟨_, _, h2⟩ <;>
          rw [h2] at hm3 <;> simp [List.mem_replicate] at hm3
      · rw [h1] at hm3
        rcases clientBranch_cases env i s with
          ⟨_, h2⟩ | ⟨_, w, f, _, _, _, h2⟩ | ⟨_, _, h2⟩ <;>
          rw [h2] at hm3 <;> simp [List.mem_replicate] at hm3
    rcases scanFor_succ_cases env cs n i s with ⟨_, h1⟩ | ⟨_, h1⟩
    · rw [h1] at hm; exact hbody hm
    · rw [h1] at hm
      rcases List.mem_append.1 hm with hm | hm
      · exact hbody hm
      · exact ih _ _ hm

/-! ## One iteration of the loop -/

theorem select_fst (nfds : Int) (set : fd_set) (env : Env) :
    (select nfds set env).1 = -1 ↔ env.selectFails = true := by
  unfold select
  cases hs : env.selectFails with
  | true => simp
  | false =>
    simp only [Bool.false_eq_true, if_false, iff_false]
    intro h
    have := Int.natCast_nonneg ((List.range nfds.toNat).filter
      (fun k => decide (0 ≤ (k : Int)) && decide ((k : Int) < nfds) && set (k : Int) &&
        env.readable (k : Int))).length
    omega

/-- What `select` leaves in the set was in it before. -/
theorem readySet_sub (env : Env) (s : ListenState) (i : Int)
    (hr : FD_ISSET i (readySet env s) = true) : FD_ISSET i s.masterSocketSet = true := by
  unfold readySet select at hr
  cases hs : env.selectFails with
  | true => simpa [hs] using hr
  | false =>
    simp only [hs, Bool.false_eq_true, if_false, FD_ISSET, Bool.and_eq_true] at hr
    exact hr.1.2

/-- A descriptor that `select` reports ready lies below `nfds`. -/
theorem readySet_range (env : Env) (s : ListenState) (i : Int)
    (hs : env.selectFails = false) (hr : FD_ISSET i (readySet env s) = true) :
    0 ≤ i ∧ i < s.highestFileDescriptor + 1 := by
  unfold readySet select at hr
  simp only [hs, Bool.false_eq_true, if_false, FD_ISSET, Bool.and_eq_true,
    decide_eq_true_eq] at hr
  exact ⟨hr.1.1.1, hr.1.1.2⟩

theorem loopIteration_some (env : Env) (s : ListenState) (r : ListenState × List Event)
    (h : loopIteration env s = some r) :
    env.selectFails = false ∧ r = iterationOutcome env s := by
  unfold loopIteration at h
  split at h
  · exact absurd h (by simp)
  · rename_i hsel
    rw [select_fst] at hsel
    refine ⟨by simpa using hsel, ?_⟩
    simpa using h.symm

theorem loopIteration_of_select (env : Env) (s : ListenState) (hs : env.selectFails = false) :
    loopIteration env s = some (iterationOutcome env s) := by
  unfold loopIteration
  have : ¬ (select (s.highestFileDescriptor + 1) s.masterSocketSet env).1 = -1 := by
    rw [select_fst, hs]; simp
  simp [this]

theorem iterationOutcome_events (env : Env) (s : ListenState) :
    (iterationOutcome env s).2 =
      (scan env s).2.2 ++ (drain (finishScan (scan env s).2.1)).2 := rfl

theorem iterationOutcome_state (env : Env) (s : ListenState) :
    (iterationOutcome env s).1 = (drain (finishScan (scan env s).2.1)).1 := rfl

theorem drain_events_mem (s : ListenState) (e : Event) (he : e ∈ (drain s).2) :
    ∃ fd, e = Event.osClose fd := by
  simp only [drain, List.mem_map] at he
  obtain ⟨fd, _, rfl⟩ := he
  exact ⟨fd, rfl⟩

theorem drain_no_dispatch (s : ListenState) (h : Int) :
    ∀ e ∈ (drain s).2, e.isDispatchFor h = false := by
  intro e he
  obtain ⟨fd, rfl⟩ := drain_events_mem s e he
  rfl

/-! ## Connections that are not live -/

theorem not_live_of_sublist {h : Int} {l1 l2 : List EventWorker} (hs : List.Sublist l1 l2)
    (hl : ∀ w ∈ l2, w.fileDescriptor ≠ h) : ∀ w ∈ l1, w.fileDescriptor ≠ h :=
  fun w hw => hl w (hs.subset hw)

/-- A pass of the scan in a state without live connection `h`, when `accept` does
not return `h`: no handler is dispatched on `h` and `h` stays out of the live set. -/
theorem body_not_live (env : Env) (cs : fd_set) (i h : Int) (s : ListenState)
    (hacc : env.acceptResult ≠ h) (hl : ∀ w ∈ s.m_eventWorkers, w.fileDescriptor ≠ h) :
    (∀ e ∈ (scanBody env cs i s).2.2, e.isDispatchFor h = false) ∧
    (∀ w ∈ (scanBody env cs i s).2.1.m_eventWorkers, w.fileDescriptor ≠ h) := by
  rcases scanBody_cases env cs i s with ⟨_, h1⟩ | ⟨_, _, h1⟩ | ⟨_, _, h1⟩
  · rw [h1]; exact ⟨by simp, hl⟩
  · rw [h1]
    rcases acceptBranch_cases env s with ⟨_, h2⟩ | ⟨_, f, _, h2⟩ | ⟨_, _, h2⟩ <;> rw [h2]
    · exact ⟨by simp [Event.isDispatchFor], hl⟩
    · constructor
      · intro e he
        simp only [List.mem_cons, List.mem_append, List.mem_replicate, List.mem_singleton,
          List.not_mem_nil, or_false] at he
        rcases he with rfl | rfl | ⟨_, rfl⟩ | rfl <;> simp [Event.isDispatchFor, hacc]
      · intro w hw
        simp only [List.mem_append, List.mem_singleton] at hw
        rcases hw with hw | rfl
        · have hsub : List.Sublist
              (runHandler f { m_fileDescriptor := env.acceptResult }
                (f { m_fileDescriptor := env.acceptResult })
                (watchClient env.acceptResult s)).m_eventWorkers s.m_eventWorkers :=
            runHandler_sublist f _ _ (watchClient env.acceptResult s)
          exact not_live_of_sublist hsub hl w hw
        · exact hacc
    · constructor
      · simp [Event.isDispatchFor]
      · intro w hw
        simp only [List.mem_append, List.mem_singleton] at hw
        rcases hw with hw | rfl
        · exact hl w hw
        · exact hacc
  · rw [h1]
    rcases clientBranch_cases env i s with ⟨_, h2⟩ | ⟨_, w, f, hw, hfd, _, h2⟩ | ⟨_, _, h2⟩ <;>
      rw [h2]
    · refine ⟨by simp [Event.isDispatchFor], ?_⟩
      exact not_live_of_sublist (by rw [close_eventWorkers]; exact List.filter_sublist _) hl
    · have hih : i ≠ h := by
        have hm : w ∈ s.m_eventWorkers := List.mem_of_find?_eq_some hw
        exact hfd ▸ hl w hm
      constructor
      · intro e he
        simp only [List.mem_cons, List.mem_append, List.mem_replicate, List.mem_singleton,
          List.not_mem_nil, or_false] at he
        rcases he with rfl | rfl | ⟨_, rfl⟩ | rfl <;> simp [Event.isDispatchFor, hih]
      · exact not_live_of_sublist (runHandler_sublist f w _ s) hl
    · exact ⟨by simp [Event.isDispatchFor], hl⟩

theorem scanFor_not_live (env : Env) (cs : fd_set) (n : Nat) (i h : Int) (s : ListenState)
    (hacc : env.acceptResult ≠ h) (hl : ∀ w ∈ s.m_eventWorkers, w.fileDescriptor ≠ h) :
    (∀ e ∈ (scanFor env cs n i s).2.2, e.isDispatchFor h = false) ∧
    (∀ w ∈ (scanFor env cs n i s).2.1.m_eventWorkers, w.fileDescriptor ≠ h) := by
  induction n generalizing i s with
  | zero => exact ⟨by simp [scanFor], hl⟩
  | succ n ih =>
    have hb := body_not_live env cs i h s hacc hl
    rcases scanFor_succ_cases env cs n i s with ⟨_, h1⟩ | ⟨_, h1⟩
    · rw [h1]; exact hb
    · rw [h1]
      have hr := ih (i + 1) _ hb.2
      refine ⟨fun e he => ?_, hr.2⟩
      rcases List.mem_append.1 he with he | he
      · exact hb.1 e he
      · exact hr.1 e he

/-- C1. In every state `s`, after `close( h )` no live connection has descriptor `h`;
the branch of a known client socket run on descriptor `h` in that state
dispatches nothing, whatever the peek returns; as long as `accept` does not
return `h`, no pass of the scan that follows dispatches a handler on `h` or
brings `h` back into the live set. And in a whole iteration of the loop from any
state `st`, whose `accept` returns a descriptor that was not watched when
`select` was called, no handler is dispatched on `h` after a call `close( h )`. -/
theorem close_stops_dispatch (s st : ListenState) (h : Int) (env : Env)
    (r : ListenState × List Event)
    (hfresh : FD_ISSET env.acceptResult st.masterSocketSet = false)
    (hiter : loopIteration env st = some r) :
    (∀ w ∈ (EventListener.close h s).m_eventWorkers, w.fileDescriptor ≠ h) ∧
    (∀ (os : Env), ∀ e ∈ (clientBranch os h (EventListener.close h s)).2,
      ∀ k, e.isDispatchFor k = false) ∧
    (∀ (os : Env), os.acceptResult ≠ h → ∀ (cs : fd_set) (n : Nat) (i : Int),
      (∀ e ∈ (scanFor os cs n i (EventListener.close h s)).2.2, e.isDispatchFor h = false) ∧
      (∀ w ∈ (scanFor os cs n i (EventListener.close h s)).2.1.m_eventWorkers,
        w.fileDescriptor ≠ h)) ∧
    noDispatchAfterClose h r.2 = true := by
  refine ⟨close_not_live h s, ?_, ?_, ?_⟩
  · intro os e he k
    have hnone := findWorker_none_of_not_live h _ (close_not_live h s)
    rcases clientBranch_cases os h (EventListener.close h s) with
      ⟨_, h2⟩ | ⟨_, w, f, hw, _, _, _⟩ | ⟨_, _, h2⟩
    · rw [h2] at he
      simp only [List.mem_cons, List.mem_singleton, List.not_mem_nil, or_false] at he
      rcases he with rfl | rfl <;> rfl
    · rw [hnone] at hw
      exact absurd hw (by simp)
    · rw [h2] at he
      simp only [List.mem_singleton] at he
      subst he
      rfl
  · intro os hacc cs n i
    exact scanFor_not_live os cs n i h _ hacc (close_not_live h s)
  · obtain ⟨_, hr⟩ := loopIteration_some env st r hiter
    have hcs : FD_ISSET env.acceptResult (readySet env st) = false := by
      cases hc : FD_ISSET env.acceptResult (readySet env st) with
      | false => rfl
      | true =>
        rw [readySet_sub env st _ hc] at hfresh
        exact absurd hfresh (by decide)
    rw [hr, iterationOutcome_events, quiet_append]
    refine ⟨scanFor_quiet env _ _ 0 h _ hcs, ?_, fun _ => drain_no_dispatch _ h⟩
    exact quiet_of_no_dispatch _ _ (drain_no_dispatch _ h)

/-- C1 on the listener with live connections `4` and `5`, both ready with data, whose
on-read handler closes its connection, `accept` returning the unwatched `6`. -/
theorem close_stops_dispatch_witness :
    FD_ISSET (envOf [4, 5] 6 1).acceptResult
      (twoClients none (some closingHandler) []).masterSocketSet = false ∧
    loopIteration (envOf [4, 5] 6 1) (twoClients none (some closingHandler) []) =
      some (iterationOutcome (envOf [4, 5] 6 1) (twoClients none (some closingHandler) [])) ∧
    (envOf [4, 5] 6 1).acceptResult ≠ 4 ∧
    (∀ e ∈ (scanFor (envOf [4, 5] 6 1) (fun _ => true) 6 0
        (EventListener.close 4 (twoClients none (some closingHandler) []))).2.2,
      e.isDispatchFor 4 = false) ∧
    noDispatchAfterClose 4
      (iterationOutcome (envOf [4, 5] 6 1) (twoClients none (some closingHandler) [])).2 = true :=
  ⟨by decide, loopIteration_of_select _ _ rfl, by decide,
    ((close_stops_dispatch (twoClients none (some closingHandler) [])
      (twoClients none (some closingHandler) []) 4 (envOf [4, 5] 6 1)
      (iterationOutcome (envOf [4, 5] 6 1) (twoClients none (some closingHandler) []))
      (by decide) (loopIteration_of_select _ _ rfl)).2.2.1 (envOf [4, 5] 6 1) (by decide)
      (fun _ => true) 6 0).1,
    (close_stops_dispatch (twoClients none (some closingHandler) [])
      (twoClients none (some closingHandler) []) 4 (envOf [4, 5] 6 1)
      (iterationOutcome (envOf [4, 5] 6 1) (twoClients none (some closingHandler) []))
      (by decide) (loopIteration_of_select _ _ rfl)).2.2.2⟩

/-! ## The pass for one descriptor inside the scan -/

theorem flow_cases (f : Flow) : f = Flow.brk ∨ f = Flow.next := by
  cases f
  · exact Or.inr rfl
  · exact Or.inl rfl

/-- The scan around the pass for descriptor `i`, when the passes before it did not
leave the loop. -/
theorem scan_at (env : Env) (st : ListenState) (i : Int) (h0 : 0 ≤ i)
    (hN : i < st.highestFileDescriptor + 1)
    (hP : (scanUpTo env st i.toNat).1 = Flow.next) :
    ((scanBody env (readySet env st) i (scanUpTo env st i.toNat).2.1).1 = Flow.brk →
      scan env st = (Flow.brk,
        (scanBody env (readySet env st) i (scanUpTo env st i.toNat).2.1).2.1,
        (scanUpTo env st i.toNat).2.2 ++
          (scanBody env (readySet env st) i (scanUpTo env st i.toNat).2.1).2.2)) ∧
    ((scanBody env (readySet env st) i (scanUpTo env st i.toNat).2.1).1 = Flow.next →
      (scanUpTo env st (i.toNat + 1)).2.1 =
        (scanBody env (readySet env st) i (scanUpTo env st i.toNat).2.1).2.1 ∧
      ∃ m : Nat,
        (scan env st).2.1 =
          (scanFor env (readySet env st) m (i + 1)
            (scanBody env (readySet env st) i (scanUpTo env st i.toNat).2.1).2.1).2.1 ∧
        (scan env st).2.2 =
          (scanUpTo env st i.toNat).2.2 ++
            ((scanBody env (readySet env st) i (scanUpTo env st i.toNat).2.1).2.2 ++
              (scanFor env (readySet env st) m (i + 1)
                (scanBody env (readySet env st) i (scanUpTo env st i.toNat).2.1).2.1).2.2)) := by
  have hk : ((i.toNat : Nat) : Int) = i := Int.toNat_of_nonneg h0
  have hidx : (0 : Int) + (i.toNat : Int) = i := by omega
  obtain ⟨m, hm⟩ : ∃ m : Nat, (st.highestFileDescriptor + 1).toNat = i.toNat + (m + 1) := by
    refine ⟨(st.highestFileDescriptor + 1).toNat - i.toNat - 1, ?_⟩
    omega
  have hadd := scanFor_add env (readySet env st) i.toNat (m + 1) 0 (scanStart st)
  have hadd1 := scanFor_add env (readySet env st) i.toNat 1 0 (scanStart st)
  unfold scanUpTo at hP
  rcases hadd with ⟨hb, _⟩ | ⟨_, hsplit⟩
  · rw [hP] at hb; exact absurd hb (by decide)
  rcases hadd1 with ⟨hb, _⟩ | ⟨_, hsplit1⟩
  · rw [hP] at hb; exact absurd hb (by decide)
  rw [hidx] at hsplit hsplit1
  unfold scan scanUpTo
  rw [hm, hsplit, hsplit1]
  constructor
  · intro hB
    rcases scanFor_succ_cases env (readySet env st) m i
        (scanFor env (readySet env st) i.toNat 0 (scanStart st)).2.1 with ⟨_, h1⟩ | ⟨h2, _⟩
    · rw [h1]
      rcases hbody : scanBody env (readySet env st) i
          (scanFor env (readySet env st) i.toNat 0 (scanStart st)).2.1 with ⟨fl, s1, ev⟩
      rw [hbody] at hB
      simp only at hB
      subst hB
      rfl
    · rw [hB] at h2; exact absurd h2 (by decide)
  · intro hB
    rcases scanFor_succ_cases env (readySet env st) m i
        (scanFor env (readySet env st) i.toNat 0 (scanStart st)).2.1 with ⟨h2, _⟩ | ⟨_, h1⟩
    · rw [hB] at h2; exact absurd h2 (by decide)
    rcases scanFor_succ_cases env (readySet env st) 0 i
        (scanFor env (readySet env st) i.toNat 0 (scanStart st)).2.1 with ⟨h2, _⟩ | ⟨_, h3⟩
    · rw [hB] at h2; exact absurd h2 (by decide)
    refine ⟨?_, m, ?_, ?_⟩
    · rw [h3]; rfl
    · rw [h1]
    · rw [h1]

/-- A peek made in an iteration is made by the pass for its descriptor, which the
scan reaches. -/
theorem peek_reached (env : Env) (st : ListenState) (i : Int)
    (hp : Event.peek i ∈ (scan env st).2.2) :
    0 ≤ i ∧ i < st.highestFileDescriptor + 1 ∧ FD_ISSET i (readySet env st) = true ∧
      i ≠ st.m_socket ∧ (scanUpTo env st i.toNat).1 = Flow.next := by
  unfold scan scanUpTo at hp
  obtain ⟨h0, hN, hcs, hne⟩ :=
    scanFor_client_event env _ _ 0 i _ (Event.peek i) hp (Or.inl rfl)
  have hN1 : i < st.highestFileDescriptor + 1 := by omega
  refine ⟨h0, hN1, hcs, hne, ?_⟩
  rcases flow_cases (scanUpTo env st i.toNat).1 with hb | hn
  · exfalso
    obtain ⟨m, hm⟩ : ∃ m : Nat, (st.highestFileDescriptor + 1).toNat = i.toNat + m := by
      refine ⟨(st.highestFileDescriptor + 1).toNat - i.toNat, ?_⟩
      omega
    rcases scanFor_add env (readySet env st) i.toNat m 0 (scanStart st) with
      ⟨_, hsame⟩ | ⟨hnx, _⟩
    · rw [hm, hsame] at hp
      obtain ⟨_, h2, _, _⟩ :=
        scanFor_client_event env _ _ 0 i _ (Event.peek i) hp (Or.inl rfl)
      omega
    · unfold scanUpTo at hb
      rw [hb] at hnx
      exact absurd hnx (by decide)
  · exact hn

/-- A ready descriptor other than the listening socket is peeked in an iteration
whose scan reaches it. -/
theorem peek_made (env : Env) (st : ListenState) (i : Int)
    (hsel : env.selectFails = false)
    (hready : FD_ISSET i (readySet env st) = true) (hne : i ≠ st.m_socket)
    (hreach : (scanUpTo env st i.toNat).1 = Flow.next) :
    Event.peek i ∈ (iterationOutcome env st).2 := by
  obtain ⟨h0, hN⟩ := readySet_range env st i hsel hready
  have hsock : (scanUpTo env st i.toNat).2.1.m_socket = st.m_socket :=
    (keeps_scanFor env (readySet env st) i.toNat 0 (scanStart st)).1
  have hbody : scanBody env (readySet env st) i (scanUpTo env st i.toNat).2.1 =
      (Flow.next, (clientBranch env i (scanUpTo env st i.toNat).2.1).1,
        (clientBranch env i (scanUpTo env st i.toNat).2.1).2) := by
    rcases scanBody_cases env (readySet env st) i (scanUpTo env st i.toNat).2.1 with
      ⟨hc, _⟩ | ⟨_, hm, _⟩ | ⟨_, _, h⟩
    · rw [hready] at hc; exact absurd hc (by decide)
    · rw [hsock] at hm; exact absurd hm hne
    · exact h
  obtain ⟨_, m, _, hevents⟩ := (scan_at env st i h0 hN hreach).2 (by rw [hbody])
  rw [hbody] at hevents
  rw [iterationOutcome_events, hevents]
  apply List.mem_append_left
  apply List.mem_append_right
  apply List.mem_append_left
  rcases clientBranch_cases env i (scanUpTo env st i.toNat).2.1 with
    ⟨_, h2⟩ | ⟨_, w, f, _, _, _, h2⟩ | ⟨_, _, h2⟩ <;> rw [h2] <;> simp

/-- What an iteration does with a descriptor `i` that it peeks (only a ready
descriptor other than the listening socket is peeked). If the peek returns
zero or less, the iteration dispatches no on-read handler on `i`, the state
after the pass for `i` has no live connection `i`, and after the drain `i` is
not in the master set. If the peek returns more, an on-read handler is
dispatched on `i` exactly when the state before the pass for `i` has a live
connection `i` and an on-read handler is bound. -/
theorem peeked_descriptor_outcome (env : Env) (st : ListenState) (i : Int)
    (r : ListenState × List Event)
    (hiter : loopIteration env st = some r) (hpeeked : Event.peek i ∈ r.2) :
    FD_ISSET i (readySet env st) = true ∧ i ≠ st.m_socket ∧
    (env.peekResult i ≤ 0 →
      Event.dispatchRead i ∉ r.2 ∧
      (∀ w ∈ (scanUpTo env st (i.toNat + 1)).2.1.m_eventWorkers, w.fileDescriptor ≠ i) ∧
      FD_ISSET i r.1.masterSocketSet = false) ∧
    (0 < env.peekResult i →
      (Event.dispatchRead i ∈ r.2 ↔
        (∃ w ∈ (scanUpTo env st i.toNat).2.1.m_eventWorkers, w.fileDescriptor = i) ∧
          st.m_handleRead.isSome = true)) := by
  obtain ⟨_, hr⟩ := loopIteration_some env st r hiter
  subst hr
  rw [iterationOutcome_events] at hpeeked
  have hps : Event.peek i ∈ (scan env st).2.2 := by
    rcases List.mem_append.1 hpeeked with hp | hp
    · exact hp
    · obtain ⟨fd, hfd⟩ := drain_events_mem _ _ hp
      exact absurd hfd (by simp)
  obtain ⟨h0, hN, hcs, hne, hP⟩ := peek_reached env st i hps
  -- the pass for `i` takes the branch of a known client socket
  have hkeep := keeps_scanFor env (readySet env st) i.toNat 0 (scanStart st)
  have hsock : (scanUpTo env st i.toNat).2.1.m_socket = st.m_socket := hkeep.1
  have hread : (scanUpTo env st i.toNat).2.1.m_handleRead = st.m_handleRead := hkeep.2.2.1
  have hbody : scanBody env (readySet env st) i (scanUpTo env st i.toNat).2.1 =
      (Flow.next, (clientBranch env i (scanUpTo env st i.toNat).2.1).1,
        (clientBranch env i (scanUpTo env st i.toNat).2.1).2) := by
    rcases scanBody_cases env (readySet env st) i (scanUpTo env st i.toNat).2.1 with
      ⟨hc, _⟩ | ⟨_, hm, _⟩ | ⟨_, _, h⟩
    · rw [hcs] at hc; exact absurd hc (by decide)
    · rw [hsock] at hm; exact absurd hm hne
    · exact h
  obtain ⟨hafter, m, hstate, hevents⟩ :=
    (scan_at env st i h0 hN hP).2 (by rw [hbody])
  rw [hbody] at hafter hstate hevents
  simp only at hafter hstate hevents
  -- a read dispatch on `i` can only come from that pass
  have hlocal : Event.dispatchRead i ∈ (iterationOutcome env st).2 ↔
      Event.dispatchRead i ∈ (clientBranch env i (scanUpTo env st i.toNat).2.1).2 := by
    rw [iterationOutcome_events, hevents]
    constructor
    · intro hd
      rcases List.mem_append.1 hd with hd | hd
      · rcases List.mem_append.1 hd with hd | hd
        · exfalso
          unfold scanUpTo at hd
          obtain ⟨_, h2, _, _⟩ :=
            scanFor_client_event env _ _ 0 i _ _ hd (Or.inr rfl)
          omega
        · rcases List.mem_append.1 hd with hd | hd
          · exact hd
          · exfalso
            obtain ⟨h2, _, _, _⟩ :=
              scanFor_client_event env _ _ (i + 1) i _ _ hd (Or.inr rfl)
            omega
      · obtain ⟨fd, hfd⟩ := drain_events_mem _ _ hd
        exact absurd hfd (by simp)
    · intro hd
      exact List.mem_append_left _
        (List.mem_append_right _ (List.mem_append_left _ hd))
  refine ⟨hcs, hne, ?_, ?_⟩
  · intro hle
    rcases clientBranch_cases env i (scanUpTo env st i.toNat).2.1 with
      ⟨_, h2⟩ | ⟨hpos, _⟩ | ⟨hpos, _⟩
    · refine ⟨?_, ?_, ?_⟩
      · rw [hlocal, h2]
        simp
      · rw [hafter, h2]
        exact close_not_live i _
      · rw [iterationOutcome_state]
        apply drain_clears
        have hk2 := keeps_scanFor env (readySet env st) m (i + 1)
          (clientBranch env i (scanUpTo env st i.toNat).2.1).1
        rw [hstate]
        apply hk2.2.2.2.2
        rw [h2, close_stale]
        simp
    · omega
    · omega
  · intro hpos
    rw [hlocal, ← hread, ← findWorker_isSome]
    rcases clientBranch_cases env i (scanUpTo env st i.toNat).2.1 with
      ⟨hle, _⟩ | ⟨_, w, f, hw, _, hf, h2⟩ | ⟨_, hnone, h2⟩
    · omega
    · rw [h2, hw, hf]
      simp
    · rw [h2]
      rcases hnone with hn | hn
      · rw [hn]; simp
      · rw [hn]; simp

/-- The scan reaches descriptor `i` unless the listening socket is ready, numbered
below `i`, and `accept` returns `-1`. -/
theorem scan_reaches (env : Env) (st : ListenState) (i : Int)
    (hnofail : ¬ (FD_ISSET st.m_socket (readySet env st) = true ∧
      env.acceptResult = -1 ∧ st.m_socket < i)) :
    (scanUpTo env st i.toNat).1 = Flow.next := by
  rcases flow_cases (scanUpTo env st i.toNat).1 with hb | hn
  · exfalso
    unfold scanUpTo at hb
    obtain ⟨_, h2, h3, h4⟩ := scanFor_brk env (readySet env st) i.toNat 0 (scanStart st) hb
    have hs : (scanStart st).m_socket = st.m_socket := rfl
    rw [hs] at h2 h3
    exact hnofail ⟨h3, h4, by omega⟩
  · exact hn

/-- C7, the claim fails. The listening socket `3` and the connections `4` and `5` are
ready and `accept` returns `-1`, so the scan ends at `3`. With every peek
answering `0`, connection `4` is ready and is not the listening socket, yet it
is live after the scan and after the iteration and still in the master set.
With every peek answering `1`, connection `4` is live and an on-read handler is
bound, yet no on-read handler is dispatched on `4`. -/
theorem unreached_descriptor_untouched :
    FD_ISSET 4 (readySet (envOf [3, 4, 5] (-1) 0) (twoClients none (some echoHandler) []))
        = true ∧
    (4 : Int) ≠ (twoClients none (some echoHandler) []).m_socket ∧
    (envOf [3, 4, 5] (-1) 0).peekResult 4 ≤ 0 ∧
    liveHandles (scan (envOf [3, 4, 5] (-1) 0) (twoClients none (some echoHandler) [])).2.1
        = [4, 5] ∧
    (loopIteration (envOf [3, 4, 5] (-1) 0) (twoClients none (some echoHandler) [])).map
        (fun r => (liveHandles r.1, r.2, FD_ISSET 4 r.1.masterSocketSet))
      = some ([4, 5], [Event.accepted (-1)], true) ∧
    FD_ISSET 4 (readySet (envOf [3, 4, 5] (-1) 1) (twoClients none (some echoHandler) []))
        = true ∧
    0 < (envOf [3, 4, 5] (-1) 1).peekResult 4 ∧
    (findWorker 4 (twoClients none (some echoHandler) [])).isSome = true ∧
    (twoClients none (some echoHandler) []).m_handleRead.isSome = true ∧
    (loopIteration (envOf [3, 4, 5] (-1) 1) (twoClients none (some echoHandler) [])).map
        (fun r => (liveHandles r.1, r.2))
      = some ([4, 5], [Event.accepted (-1)]) := by
  decide

/-- C7 as amended. Descriptor `i` is ready in an iteration of the loop, is not the
listening socket, and the scan is not ended before it by a failed `accept`
(the listening socket ready, numbered below `i`, `accept` returning `-1`).
Then `i` is peeked. If the peek returns zero or less, the iteration dispatches
no on-read handler on `i`, the state after the pass for `i` has no live
connection `i`, and after the drain `i` is not in the master set. If the peek
returns more, an on-read handler is dispatched on `i` exactly when the state
before the pass for `i` has a live connection `i` and an on-read handler is
bound. -/
theorem reached_descriptor_outcome (env : Env) (st : ListenState) (i : Int)
    (r : ListenState × List Event)
    (hiter : loopIteration env st = some r)
    (hready : FD_ISSET i (readySet env st) = true) (hne : i ≠ st.m_socket)
    (hnofail : ¬ (FD_ISSET st.m_socket (readySet env st) = true ∧
      env.acceptResult = -1 ∧ st.m_socket < i)) :
    Event.peek i ∈ r.2 ∧
    (env.peekResult i ≤ 0 →
      Event.dispatchRead i ∉ r.2 ∧
      (∀ w ∈ (scanUpTo env st (i.toNat + 1)).2.1.m_eventWorkers, w.fileDescriptor ≠ i) ∧
      FD_ISSET i r.1.masterSocketSet = false) ∧
    (0 < env.peekResult i →
      (Event.dispatchRead i ∈ r.2 ↔
        (∃ w ∈ (scanUpTo env st i.toNat).2.1.m_eventWorkers, w.fileDescriptor = i) ∧
          st.m_handleRead.isSome = true)) := by
  obtain ⟨hsel, hr⟩ := loopIteration_some env st r hiter
  have hreach := scan_reaches env st i hnofail
  have hpeeked : Event.peek i ∈ r.2 := by
    rw [hr]
    exact peek_made env st i hsel hready hne hreach
  exact ⟨hpeeked, (peeked_descriptor_outcome env st i r hiter hpeeked).2.2⟩

/-- The amended C7 on the listener with live connections `4` and `5`, both ready, the
listening socket not ready. When the peer of each has closed (peek `0`), `4`
is peeked, no on-read handler is dispatched on it although one is bound, and
after the drain `4` is not in the master set. When both have data (peek `1`),
the on-read handler is dispatched on `4`. -/
theorem reached_descriptor_outcome_witness :
    (loopIteration (envOf [4, 5] (-1) 0) (twoClients none (some echoHandler) []) =
      some (iterationOutcome (envOf [4, 5] (-1) 0) (twoClients none (some echoHandler) [])) ∧
    FD_ISSET 4 (readySet (envOf [4, 5] (-1) 0) (twoClients none (some echoHandler) []))
      = true ∧
    (4 : Int) ≠ (twoClients none (some echoHandler) []).m_socket ∧
    ¬ (FD_ISSET (twoClients none (some echoHandler) []).m_socket
        (readySet (envOf [4, 5] (-1) 0) (twoClients none (some echoHandler) [])) = true ∧
      (envOf [4, 5] (-1) 0).acceptResult = -1 ∧
      (twoClients none (some echoHandler) []).m_socket < 4) ∧
    (envOf [4, 5] (-1) 0).peekResult 4 ≤ 0 ∧
    Event.peek 4 ∈
      (iterationOutcome (envOf [4, 5] (-1) 0) (twoClients none (some echoHandler) [])).2 ∧
    Event.dispatchRead 4 ∉
      (iterationOutcome (envOf [4, 5] (-1) 0) (twoClients none (some echoHandler) [])).2 ∧
    FD_ISSET 4
      (iterationOutcome (envOf [4, 5] (-1) 0)
        (twoClients none (some echoHandler) [])).1.masterSocketSet = false) ∧
    (loopIteration (envOf [4, 5] 6 1) (twoClients none (some echoHandler) []) =
      some (iterationOutcome (envOf [4, 5] 6 1) (twoClients none (some echoHandler) [])) ∧
    FD_ISSET 4 (readySet (envOf [4, 5] 6 1) (twoClients none (some echoHandler) []))
      = true ∧
    ¬ (FD_ISSET (twoClients none (some echoHandler) []).m_socket
        (readySet (envOf [4, 5] 6 1) (twoClients none (some echoHandler) [])) = true ∧
      (envOf [4, 5] 6 1).acceptResult = -1 ∧
      (twoClients none (some echoHandler) []).m_socket < 4) ∧
    0 < (envOf [4, 5] 6 1).peekResult 4 ∧
    Event.dispatchRead 4 ∈
      (iterationOutcome (envOf [4, 5] 6 1) (twoClients none (some echoHandler) [])).2) :=
  ⟨⟨loopIteration_of_select _ _ rfl, by decide, by decide, by decide, by decide,
      (reached_descriptor_outcome (envOf [4, 5] (-1) 0)
        (twoClients none (some echoHandler) []) 4
        (iterationOutcome (envOf [4, 5] (-1) 0) (twoClients none (some echoHandler) []))
        (loopIteration_of_select _ _ rfl) (by decide) (by decide) (by decide)).1,
      ((reached_descriptor_outcome (envOf [4, 5] (-1) 0)
        (twoClients none (some echoHandler) []) 4
        (iterationOutcome (envOf [4, 5] (-1) 0) (twoClients none (some echoHandler) []))
        (loopIteration_of_select _ _ rfl) (by decide) (by decide) (by decide)).2.1
          (by decide)).1,
      ((reached_descriptor_outcome (envOf [4, 5] (-1) 0)
        (twoClients none (some echoHandler) []) 4
        (iterationOutcome (envOf [4, 5] (-1) 0) (twoClients none (some echoHandler) []))
        (loopIteration_of_select _ _ rfl) (by decide) (by decide) (by decide)).2.1
          (by decide)).2.2⟩,
    ⟨loopIteration_of_select _ _ rfl, by decide, by decide, by decide,
      ((reached_descriptor_outcome (envOf [4, 5] 6 1)
        (twoClients none (some echoHandler) []) 4
        (iterationOutcome (envOf [4, 5] 6 1) (twoClients none (some echoHandler) []))
        (loopIteration_of_select _ _ rfl) (by decide) (by decide) (by decide)).2.2
          (by decide)).2 ⟨⟨{ m_fileDescriptor := 4 }, by decide, rfl⟩, rfl⟩⟩⟩

/-! ## Passes below the listening socket -/

/-- A pass for a descriptor other than the listening socket registers nothing and
leaves the master set alone; it touches no live connection but its own, and what
it adds to the stale list it has closed. -/
theorem body_client_frame (env : Env) (cs : fd_set) (i : Int) (s : ListenState)
    (hm : i ≠ s.m_socket) :
    (scanBody env cs i s).1 = Flow.next ∧
    List.Sublist (scanBody env cs i s).2.1.m_eventWorkers s.m_eventWorkers ∧
    (scanBody env cs i s).2.1.masterSocketSet = s.masterSocketSet ∧
    (∀ c, c ≠ i → (c ∈ liveHandles (scanBody env cs i s).2.1 ↔ c ∈ liveHandles s)) ∧
    (∀ x ∈ (scanBody env cs i s).2.1.m_staleFileDescriptors,
      x ∈ s.m_staleFileDescriptors ∨ Event.scheduled x ∈ (scanBody env cs i s).2.2) ∧
    (∀ a, scanBody { env with acceptResult := a } cs i s = scanBody env cs i s) := by
  have hindep : ∀ a, scanBody { env with acceptResult := a } cs i s = scanBody env cs i s := by
    intro a
    simp [scanBody, hm, clientBranch]
  rcases scanBody_cases env cs i s with ⟨_, h1⟩ | ⟨_, h0, _⟩ | ⟨_, _, h1⟩
  · rw [h1]
    exact ⟨rfl, List.Sublist.refl _, rfl, fun _ _ => Iff.rfl, fun x hx => Or.inl hx,
      fun a => by rw [← h1]; exact hindep a⟩
  · exact absurd h0 hm
  · refine ⟨by rw [h1], ?_, ?_, ?_, ?_, hindep⟩
    · rw [h1]
      rcases clientBranch_cases env i s with ⟨_, h2⟩ | ⟨_, w, f, _, _, _, h2⟩ | ⟨_, _, h2⟩
      · rw [h2, close_eventWorkers]; exact List.filter_sublist _
      · rw [h2]; exact runHandler_sublist f w _ s
      · rw [h2]
    · rw [h1]
      rcases clientBranch_cases env i s with ⟨_, h2⟩ | ⟨_, w, f, _, _, _, h2⟩ | ⟨_, _, h2⟩
      · rw [h2]; rfl
      · rw [h2]; exact (runHandler_master f w _ s).1
      · rw [h2]
    · intro c hc
      rw [h1]
      rcases clientBranch_cases env i s with ⟨_, h2⟩ | ⟨_, w, f, _, hfd, _, h2⟩ | ⟨_, _, h2⟩
      · rw [h2]; exact close_live_other i c s hc
      · rw [h2]; exact runHandler_live_other f w _ s c (hfd ▸ hc)
      · rw [h2]
    · intro x hx
      rw [h1] at hx ⊢
      rcases clientBranch_cases env i s with ⟨_, h2⟩ | ⟨_, w, f, _, hfd, _, h2⟩ | ⟨_, _, h2⟩
      · rw [h2] at hx ⊢
        rw [close_stale] at hx
        rcases List.mem_append.1 hx with hx | hx
        · exact Or.inl hx
        · right
          simp only [List.mem_singleton] at hx
          subst hx
          simp
      · rw [h2] at hx ⊢
        simp only [runHandler_stale, List.mem_append, List.mem_replicate] at hx
        rcases hx with hx | ⟨hn, hx⟩
        · exact Or.inl hx
        · right
          rw [hfd] at hx
          subst hx
          simp [List.mem_replicate, hn]
      · rw [h2] at hx ⊢
        exact Or.inl hx

/-- The passes for descriptors below the listening socket. -/
theorem scanFor_below (env : Env) (cs : fd_set) (n : Nat) (i : Int) (s : ListenState)
    (hlow : i + n ≤ s.m_socket) :
    (scanFor env cs n i s).1 = Flow.next ∧
    List.Sublist (scanFor env cs n i s).2.1.m_eventWorkers s.m_eventWorkers ∧
    (scanFor env cs n i s).2.1.masterSocketSet = s.masterSocketSet ∧
    (∀ c, i + n ≤ c → (c ∈ liveHandles (scanFor env cs n i s).2.1 ↔ c ∈ liveHandles s)) ∧
    (∀ x ∈ (scanFor env cs n i s).2.1.m_staleFileDescriptors,
      x ∈ s.m_staleFileDescriptors ∨ Event.scheduled x ∈ (scanFor env cs n i s).2.2) ∧
    (∀ a, scanFor { env with acceptResult := a } cs n i s = scanFor env cs n i s) := by
  induction n generalizing i s with
  | zero =>
    exact ⟨rfl, List.Sublist.refl _, rfl, fun _ _ => Iff.rfl, fun x hx => Or.inl hx,
      fun _ => rfl⟩
  | succ n ih =>
    have hm : i ≠ s.m_socket := by
      intro e
      rw [← e] at hlow
      push_cast at hlow
      omega
    obtain ⟨b1, b2, b3, b4, b5, b6⟩ := body_client_frame env cs i s hm
    have hsock := (keeps_scanBody env cs i s).1
    have hlow2 : i + 1 + (n : Int) ≤ (scanBody env cs i s).2.1.m_socket := by
      rw [hsock]
      push_cast at hlow
      omega
    obtain ⟨r1, r2, r3, r4, r5, r6⟩ := ih (i + 1) _ hlow2
    have hindep : ∀ a, scanFor { env with acceptResult := a } cs (n + 1) i s =
        scanFor env cs (n + 1) i s := by
      intro a
      rw [scanFor, scanFor, b6 a]
      rcases hb : scanBody env cs i s with ⟨fl, s1, ev⟩
      cases fl with
      | brk => rfl
      | next =>
        have := r6 a
        rw [hb] at this
        simp only at this ⊢
        rw [this]
    rcases scanFor_succ_cases env cs n i s with ⟨h0, _⟩ | ⟨_, h1⟩
    · rw [b1] at h0; exact absurd h0 (by decide)
    · rw [h1]
      refine ⟨r1, r2.trans b2, r3.trans b3, ?_, ?_, ?_⟩
      · intro c hc
        push_cast at hc
        rw [r4 c (by omega), b4 c (by omega)]
      · intro x hx
        rcases r5 x hx with hx | hx
        · rcases b5 x hx with hx | hx
          · exact Or.inl hx
          · exact Or.inr (List.mem_append_left _ hx)
        · exact Or.inr (List.mem_append_right _ hx)
      · intro a
        rw [← h1]
        exact hindep a

/-- C8 as amended. The listening socket is ready and `accept` returns `-1`. The loop goes
on; the scan ends at the listening socket, having handled the descriptors below
it as it does whatever `accept` returns; no connection is registered; no
descriptor above the listening socket is peeked, closed or dispatched on in
that iteration, and unless it was on the stale list before, it keeps its place
in the master set and in the live set and is not closed. -/
theorem failed_accept_ends_scan (env : Env) (st : ListenState)
    (hsel : env.selectFails = false)
    (hready : FD_ISSET st.m_socket (readySet env st) = true)
    (hacc : env.acceptResult = -1) :
    loopIteration env st = some (iterationOutcome env st) ∧
    (scan env st).1 = Flow.brk ∧
    (scan env st).2.1 = (scanUpTo env st st.m_socket.toNat).2.1 ∧
    (scan env st).2.2 = (scanUpTo env st st.m_socket.toNat).2.2 ++ [Event.accepted (-1)] ∧
    (∀ a, scanUpTo { env with acceptResult := a } st st.m_socket.toNat =
      scanUpTo env st st.m_socket.toNat) ∧
    List.Sublist (iterationOutcome env st).1.m_eventWorkers st.m_eventWorkers ∧
    (∀ j, Event.dispatchAccept j ∉ (iterationOutcome env st).2) ∧
    (∀ j, st.m_socket < j →
      Event.peek j ∉ (iterationOutcome env st).2 ∧
      Event.dispatchRead j ∉ (iterationOutcome env st).2 ∧
      Event.scheduled j ∉ (iterationOutcome env st).2) ∧
    (∀ j, st.m_socket < j → j ∉ st.m_staleFileDescriptors →
      Event.osClose j ∉ (iterationOutcome env st).2 ∧
      FD_ISSET j (iterationOutcome env st).1.masterSocketSet = FD_ISSET j st.masterSocketSet ∧
      (j ∈ liveHandles (iterationOutcome env st).1 ↔ j ∈ liveHandles st)) := by
  obtain ⟨h0, hN⟩ := readySet_range env st _ hsel hready
  have hk : ((st.m_socket.toNat : Nat) : Int) = st.m_socket := Int.toNat_of_nonneg h0
  have hlow : (0 : Int) + (st.m_socket.toNat : Int) ≤ (scanStart st).m_socket := by
    show (0 : Int) + (st.m_socket.toNat : Int) ≤ st.m_socket
    omega
  obtain ⟨p1, p2, p3, p4, p5, p6⟩ :=
    scanFor_below env (readySet env st) st.m_socket.toNat 0 (scanStart st) hlow
  have hsock : (scanUpTo env st st.m_socket.toNat).2.1.m_socket = st.m_socket :=
    (keeps_scanFor env (readySet env st) st.m_socket.toNat 0 (scanStart st)).1
  -- the pass for the listening socket is the failed `accept`
  have hbody : scanBody env (readySet env st) st.m_socket
      (scanUpTo env st st.m_socket.toNat).2.1 =
      (Flow.brk, (scanUpTo env st st.m_socket.toNat).2.1, [Event.accepted (-1)]) := by
    rcases scanBody_cases env (readySet env st) st.m_socket
        (scanUpTo env st st.m_socket.toNat).2.1 with ⟨hc, _⟩ | ⟨_, _, h⟩ | ⟨_, hm, _⟩
    · rw [hready] at hc; exact absurd hc (by decide)
    · rw [h]
      rcases acceptBranch_cases env (scanUpTo env st st.m_socket.toNat).2.1 with
        ⟨_, h2⟩ | ⟨ha, _⟩ | ⟨ha, _⟩
      · exact h2
      · exact absurd hacc ha
      · exact absurd hacc ha
    · rw [hsock] at hm; exact absurd rfl hm
  have hscan := (scan_at env st st.m_socket h0 hN p1).1 (by rw [hbody])
  rw [hbody] at hscan
  simp only at hscan
  have hstate : (scan env st).2.1 = (scanUpTo env st st.m_socket.toNat).2.1 := by rw [hscan]
  have hev : (scan env st).2.2 =
      (scanUpTo env st st.m_socket.toNat).2.2 ++ [Event.accepted (-1)] := by rw [hscan]
  have hevents : (iterationOutcome env st).2 =
      (scanUpTo env st st.m_socket.toNat).2.2 ++ [Event.accepted (-1)] ++
        (scanUpTo env st st.m_socket.toNat).2.1.m_staleFileDescriptors.map Event.osClose := by
    rw [iterationOutcome_events, hev, hstate]
    rfl
  -- what the passes below the listening socket left on the stale list
  have hstale : ∀ j, st.m_socket < j → j ∉ st.m_staleFileDescriptors →
      j ∉ (scanUpTo env st st.m_socket.toNat).2.1.m_staleFileDescriptors := by
    intro j hj hns hmem
    rcases p5 j hmem with hx | hx
    · exact hns hx
    · rcases scanFor_scheduled env _ _ 0 j _ hx with ⟨_, h2, _, _⟩ | ⟨_, h2, _, _⟩
      · omega
      · have : (scanStart st).m_socket = st.m_socket := rfl
        rw [this] at h2
        omega
  refine ⟨loopIteration_of_select env st hsel, by rw [hscan], hstate, hev, ?_, ?_, ?_, ?_, ?_⟩
  · intro a
    exact p6 a
  · rw [iterationOutcome_state, hstate]
    exact p2
  · intro j hmem
    rw [hevents] at hmem
    simp only [List.mem_append, List.mem_singleton, List.mem_map] at hmem
    rcases hmem with (hmem | hmem) | ⟨_, _, hmem⟩
    · obtain ⟨_, h2, _, _⟩ := scanFor_dispatchAccept env _ _ 0 j _ hmem
      have : (scanStart st).m_socket = st.m_socket := rfl
      rw [this] at h2
      omega
    · exact absurd hmem (by simp)
    · exact absurd hmem (by simp)
  · intro j hj
    have hno : ∀ e, (e = Event.peek j ∨ e = Event.dispatchRead j) →
        e ∉ (iterationOutcome env st).2 := by
      intro e hk2 hmem
      rw [hevents] at hmem
      simp only [List.mem_append, List.mem_singleton, List.mem_map] at hmem
      rcases hmem with (hmem | hmem) | ⟨_, _, hmem⟩
      · obtain ⟨_, h2, _, _⟩ := scanFor_client_event env _ _ 0 j _ e hmem hk2
        omega
      · rcases hk2 with rfl | rfl <;> exact absurd hmem (by simp)
      · rcases hk2 with rfl | rfl <;> exact absurd hmem (by simp)
    refine ⟨hno _ (Or.inl rfl), hno _ (Or.inr rfl), ?_⟩
    intro hmem
    rw [hevents] at hmem
    simp only [List.mem_append, List.mem_singleton, List.mem_map] at hmem
    rcases hmem with (hmem | hmem) | ⟨_, _, hmem⟩
    · rcases scanFor_scheduled env _ _ 0 j _ hmem with ⟨_, h2, _, _⟩ | ⟨_, h2, _, _⟩
      · omega
      · have : (scanStart st).m_socket = st.m_socket := rfl
        rw [this] at h2
        omega
    · exact absurd hmem (by simp)
    · exact absurd hmem (by simp)
  · intro j hj hns
    have hs := hstale j hj hns
    refine ⟨?_, ?_, ?_⟩
    · intro hmem
      rw [hevents] at hmem
      simp only [List.mem_append, List.mem_singleton, List.mem_map] at hmem
      rcases hmem with (hmem | hmem) | ⟨x, hx, hmem⟩
      · exact scanFor_no_osClose env _ _ 0 j _ hmem
      · exact absurd hmem (by simp)
      · simp only [Event.osClose.injEq] at hmem
        subst hmem
        exact hs hx
    · rw [iterationOutcome_state, hstate]
      show FD_ISSET j (List.foldl (fun m fd => FD_CLR fd m)
        (scanUpTo env st st.m_socket.toNat).2.1.masterSocketSet
        (scanUpTo env st st.m_socket.toNat).2.1.m_staleFileDescriptors) = _
      rw [foldl_clr_of_not_mem _ _ _ hs]
      unfold scanUpTo
      rw [p3]
      rfl
    · rw [iterationOutcome_state, hstate]
      show j ∈ liveHandles (scanUpTo env st st.m_socket.toNat).2.1 ↔ _
      unfold scanUpTo
      rw [p4 j (by omega)]
      rfl

/-- The amended C8 on the listener with the live connection `4`, the listening socket
`3` and the connection ready, the peer of `4` closed, `accept` failing. -/
theorem failed_accept_ends_scan_witness :
    (envOf [3, 4] (-1) 0).selectFails = false ∧
    FD_ISSET (oneClient none none).m_socket
      (readySet (envOf [3, 4] (-1) 0) (oneClient none none)) = true ∧
    (envOf [3, 4] (-1) 0).acceptResult = -1 ∧
    loopIteration (envOf [3, 4] (-1) 0) (oneClient none none) =
      some (iterationOutcome (envOf [3, 4] (-1) 0) (oneClient none none)) ∧
    (scan (envOf [3, 4] (-1) 0) (oneClient none none)).1 = Flow.brk :=
  ⟨rfl, by decide, rfl,
    (failed_accept_ends_scan (envOf [3, 4] (-1) 0) (oneClient none none) rfl (by decide) rfl).1,
    (failed_accept_ends_scan (envOf [3, 4] (-1) 0) (oneClient none none) rfl (by decide)
      rfl).2.1⟩

end SocketTask2

namespace PokerTask1

/-! ## The marks of `isStraight` -/

theorem markRanks_length (cards : List Card) (s : List Char) :
    (markRanks cards s).length = s.length := by
  induction cards generalizing s with
  | nil => rfl
  | cons c cs ih =>
    show (markRanks cs (s.set (c.rank.toNat - 1) '1')).length = s.length
    rw [ih, List.length_set]

theorem markRanks_get (cards : List Card) (s : List Char) (j : Nat) (hj : j < s.length) :
    (markRanks cards s)[j]? = if hasRank cards j then some '1' else s[j]? := by
  induction cards generalizing s with
  | nil => simp [markRanks, hasRank]
  | cons c cs ih =>
    show (markRanks cs (s.set (c.rank.toNat - 1) '1'))[j]? = _
    rw [ih _ (by rw [List.length_set]; exact hj), List.getElem?_set]
    by_cases hc : c.rank.toNat - 1 = j
    · have h1 : hasRank (c :: cs) j = true := by simp [hasRank, hc]
      rw [h1]
      simp [hc, hj]
    · have h1 : hasRank (c :: cs) j = hasRank cs j := by simp [hasRank, hc]
      rw [h1]
      simp [hc]

/-- The text that `isStraight` searches: the thirteen marks followed by the first
five of them again. -/
theorem strbits_get (cards : List Card) (q : Nat) (hq : q < 18) :
    (markRanks cards (List.replicate 13 '0') ++
      (markRanks cards (List.replicate 13 '0')).take 5)[q]? =
      some (bit (hasRank cards (q % 13))) := by
  have hlen : (markRanks cards (List.replicate 13 '0')).length = 13 := by
    rw [markRanks_length, List.length_replicate]
  have hget : ∀ j, j < 13 →
      (markRanks cards (List.replicate 13 '0'))[j]? = some (bit (hasRank cards j)) := by
    intro j hj
    rw [markRanks_get _ _ _ (by rw [List.length_replicate]; exact hj),
      List.getElem?_replicate]
    cases hasRank cards j <;> simp [bit, hj]
  rw [List.getElem?_append, hlen]
  by_cases h13 : q < 13
  · rw [if_pos h13, hget q h13, Nat.mod_eq_of_lt h13]
  · rw [if_neg h13, List.getElem?_take, if_pos (by omega), hget _ (by omega)]
    have : q % 13 = q - 13 := by omega
    rw [this]

theorem strbits_length (cards : List Card) :
    (markRanks cards (List.replicate 13 '0') ++
      (markRanks cards (List.replicate 13 '0')).take 5).length = 18 := by
  rw [List.length_append, List.length_take, markRanks_length, List.length_replicate]
  rfl

/-! ## The search -/

theorem startsWith_iff (s pat : List Char) :
    startsWith s pat = true ↔ ∀ k, k < pat.length → s[k]? = pat[k]? := by
  induction pat generalizing s with
  | nil =>
    cases s <;> simp [startsWith]
  | cons p pat ih =>
    cases s with
    | nil =>
      simp only [startsWith, Bool.false_eq_true, false_iff, not_forall]
      exact ⟨0, by simp, by simp⟩
    | cons c s =>
      simp only [startsWith, Bool.and_eq_true, beq_iff_eq, ih, List.length_cons]
      constructor
      · rintro ⟨hc, hs⟩ k hk
        cases k with
        | zero => simp [hc]
        | succ k =>
          simp only [List.getElem?_cons_succ]
          exact hs k (by omega)
      · intro h
        refine ⟨?_, fun k hk => ?_⟩
        · have := h 0 (by omega)
          simpa using this
        · have := h (k + 1) (by omega)
          simpa using this

theorem findFrom_isSome (pat s : List Char) (pos : Nat) :
    (findFrom pat s pos).isSome = true ↔
      ∃ p, p ≤ s.length ∧ startsWith (s.drop p) pat = true := by
  induction s generalizing pos with
  | nil =>
    simp only [findFrom, List.length_nil, Nat.le_zero_eq, exists_eq_left, List.drop_nil]
    split <;> simp_all
  | cons c s ih =>
    rw [findFrom]
    by_cases h0 : startsWith (c :: s) pat = true
    · rw [if_pos h0]
      simp only [Option.isSome_some, true_iff]
      exact ⟨0, by simp, by simpa using h0⟩
    · rw [if_neg h0, ih]
      constructor
      · rintro ⟨p, hp, hs⟩
        exact ⟨p + 1, by simpa using hp, by simpa using hs⟩
      · rintro ⟨p, hp, hs⟩
        cases p with
        | zero => exact absurd (by simpa using hs) h0
        | succ p => exact ⟨p, by simpa using hp, by simpa using hs⟩

/-- The search for `11111` succeeds exactly when five marks in a row are set. -/
theorem find_ones (s : List Char) :
    (find s ['1', '1', '1', '1', '1']).isSome = true ↔
      ∃ p, ∀ k, k < 5 → s[p + k]? = some '1' := by
  unfold find
  rw [findFrom_isSome]
  have hpat : ∀ k, k < 5 → (['1', '1', '1', '1', '1'] : List Char)[k]? = some '1' := by
    intro k hk
    have : k = 0 ∨ k = 1 ∨ k = 2 ∨ k = 3 ∨ k = 4 := by omega
    rcases this with rfl | rfl | rfl | rfl | rfl <;> rfl
  constructor
  · rintro ⟨p, _, hs⟩
    rw [startsWith_iff] at hs
    refine ⟨p, fun k hk => ?_⟩
    have := hs k (by simpa using hk)
    rw [List.getElem?_drop, hpat k hk] at this
    exact this
  · rintro ⟨p, hs⟩
    have hp : p < s.length := by
      have := hs 0 (by omega)
      rw [Nat.add_zero] at this
      by_contra hlt
      rw [List.getElem?_eq_none (by omega)] at this
      exact absurd this (by simp)
    refine ⟨p, by omega, ?_⟩
    rw [startsWith_iff]
    intro k hk
    have hk5 : k < 5 := by simpa using hk
    rw [List.getElem?_drop, hpat k hk5]
    exact hs k hk5

theorem bit_eq_one (b : Bool) : bit b = '1' ↔ b = true := by
  cases b <;> simp [bit]

/-- The function `isStraight` returns true exactly for the hands that hold five
ranks in a row on the circle of the thirteen ranks. -/
theorem isStraight_eq_circularRun (cards : CardArray_5) :
    Deck.isStraight cards = circularRun cards := by
  have hcode : Deck.isStraight cards = true ↔
      ∃ p, ∀ k, k < 5 →
        (markRanks cards.toList (List.replicate 13 '0') ++
          (markRanks cards.toList (List.replicate 13 '0')).take 5)[p + k]? = some '1' := by
    show (find _ _).isSome = true ↔ _
    exact find_ones _
  have hrun : circularRun cards = true ↔
      ∃ p, p < 13 ∧ ∀ k, k < 5 → hasRank cards.toList ((p + k) % 13) = true := by
    simp [circularRun, windowAt, List.any_eq_true, List.all_eq_true, List.mem_range]
  rw [Bool.eq_iff_iff, hcode, hrun]
  constructor
  · rintro ⟨p, hs⟩
    have hp : p + 4 < 18 := by
      by_contra hlt
      have := hs 4 (by omega)
      rw [List.getElem?_eq_none (by rw [strbits_length]; omega)] at this
      exact absurd this (by simp)
    refine ⟨p % 13, Nat.mod_lt _ (by omega), fun k hk => ?_⟩
    have := hs k hk
    rw [strbits_get _ _ (by omega)] at this
    have h2 : bit (hasRank cards.toList ((p + k) % 13)) = '1' := by simpa using this
    rw [bit_eq_one] at h2
    rw [Nat.mod_add_mod]
    exact h2
  · rintro ⟨p, hp, hs⟩
    refine ⟨p, fun k hk => ?_⟩
    rw [strbits_get _ _ (by omega), (bit_eq_one _).2 (hs k hk)]

/-! ## The straight as stated and the straight as computed -/

theorem hasRank_iff (cards : List Card) (i : Nat) :
    hasRank cards i = true ↔ ∃ c ∈ cards, c.rank.toNat - 1 = i := by
  simp [hasRank, List.any_eq_true]

theorem lowValue_iff (c : Card) (v : Nat) :
    (if c.rank = RANK.A then 1 else c.rank.toNat) = v ↔
      1 ≤ v ∧ v ≤ 13 ∧ c.rank.toNat - 1 = v - 1 := by
  rcases c with ⟨s, r⟩
  cases r <;> simp [Card.rank, RANK.toNat] <;> omega

theorem highValue_iff (c : Card) (v : Nat) :
    (if c.rank = RANK.A then 14 else c.rank.toNat) = v ↔
      2 ≤ v ∧ v ≤ 14 ∧ c.rank.toNat - 1 = (v - 1) % 13 := by
  rcases c with ⟨s, r⟩
  cases r <;> simp [Card.rank, RANK.toNat] <;> omega

theorem mem_rankValues_low (cards : CardArray_5) (v : Nat) :
    v ∈ rankValues 1 cards ↔ 1 ≤ v ∧ v ≤ 13 ∧ hasRank cards.toList (v - 1) = true := by
  simp only [rankValues, List.mem_map, hasRank_iff, lowValue_iff]
  constructor
  · rintro ⟨c, hc, h1, h2, h3⟩
    exact ⟨h1, h2, c, hc, h3⟩
  · rintro ⟨h1, h2, c, hc, h3⟩
    exact ⟨c, hc, h1, h2, h3⟩

theorem mem_rankValues_high (cards : CardArray_5) (v : Nat) :
    v ∈ rankValues 14 cards ↔
      2 ≤ v ∧ v ≤ 14 ∧ hasRank cards.toList ((v - 1) % 13) = true := by
  simp only [rankValues, List.mem_map, hasRank_iff, highValue_iff]
  constructor
  · rintro ⟨c, hc, h1, h2, h3⟩
    exact ⟨h1, h2, c, hc, h3⟩
  · rintro ⟨h1, h2, c, hc, h3⟩
    exact ⟨c, hc, h1, h2, h3⟩

theorem isRun_iff (vals : List Nat) :
    isRun vals = true ↔ ∃ lo, lo < 15 ∧ ∀ k, k < 5 → lo + k ∈ vals := by
  simp [isRun, List.any_eq_true, List.all_eq_true, List.mem_range]

theorem windowAt_iff (cards : CardArray_5) (p : Nat) :
    windowAt cards p = true ↔ ∀ k, k < 5 → hasRank cards.toList ((p + k) % 13) = true := by
  simp [windowAt, List.all_eq_true, List.mem_range]

/-- The straights of the claim are the runs that start at one of the ten ranks
from the ace to the ten. -/
theorem straightAsStated_iff (cards : CardArray_5) :
    straightAsStated cards = true ↔ ∃ p, p < 10 ∧ windowAt cards p = true := by
  unfold straightAsStated
  rw [Bool.or_eq_true, isRun_iff, isRun_iff]
  constructor
  · rintro (⟨lo, _, h⟩ | ⟨lo, _, h⟩)
    · have h0 := (mem_rankValues_low cards _).1 (h 0 (by omega))
      have h4 := (mem_rankValues_low cards _).1 (h 4 (by omega))
      refine ⟨lo - 1, by omega, (windowAt_iff _ _).2 fun k hk => ?_⟩
      have hk2 := (mem_rankValues_low cards _).1 (h k hk)
      have e : (lo - 1 + k) % 13 = lo + k - 1 := by omega
      rw [e]
      exact hk2.2.2
    · have h0 := (mem_rankValues_high cards _).1 (h 0 (by omega))
      have h4 := (mem_rankValues_high cards _).1 (h 4 (by omega))
      refine ⟨lo - 1, by omega, (windowAt_iff _ _).2 fun k hk => ?_⟩
      have hk2 := (mem_rankValues_high cards _).1 (h k hk)
      have e : (lo - 1 + k) % 13 = (lo + k - 1) % 13 := by
        have : lo - 1 + k = lo + k - 1 := by omega
        rw [this]
      rw [e]
      exact hk2.2.2
  · rintro ⟨p, hp, hw⟩
    rw [windowAt_iff] at hw
    by_cases h9 : p < 9
    · left
      refine ⟨p + 1, by omega, fun k hk => ?_⟩
      rw [mem_rankValues_low]
      refine ⟨by omega, by omega, ?_⟩
      have e : p + 1 + k - 1 = (p + k) % 13 := by omega
      rw [e]
      exact hw k hk
    · right
      refine ⟨p + 1, by omega, fun k hk => ?_⟩
      rw [mem_rankValues_high]
      refine ⟨by omega, by omega, ?_⟩
      have e : p + 1 + k - 1 = p + k := by omega
      rw [e]
      exact hw k hk

/-- Every straight of the claim is accepted by `isStraight`. -/
theorem isStraight_of_straightAsStated (cards : CardArray_5)
    (h : straightAsStated cards = true) : Deck.isStraight cards = true := by
  rw [isStraight_eq_circularRun]
  obtain ⟨p, hp, hw⟩ := (straightAsStated_iff cards).1 h
  simp only [circularRun, List.any_eq_true, List.mem_range]
  exact ⟨p, by omega, hw⟩

/-- What `isStraight` accepts beyond the straights of the claim: the three runs
that go round from the king to the ace and on. -/
theorem isStraight_eq (cards : CardArray_5) :
    Deck.isStraight cards =
      (straightAsStated cards || windowAt cards 10 || windowAt cards 11 ||
        windowAt cards 12) := by
  rw [isStraight_eq_circularRun, Bool.eq_iff_iff]
  simp only [Bool.or_eq_true, straightAsStated_iff, circularRun, List.any_eq_true,
    List.mem_range]
  constructor
  · rintro ⟨p, hp, hw⟩
    by_cases h10 : p < 10
    · exact Or.inl (Or.inl (Or.inl ⟨p, h10, hw⟩))
    · have : p = 10 ∨ p = 11 ∨ p = 12 := by omega
      rcases this with rfl | rfl | rfl
      · exact Or.inl (Or.inl (Or.inr hw))
      · exact Or.inl (Or.inr hw)
      · exact Or.inr hw
  · rintro (((⟨p, hp, hw⟩ | hw) | hw) | hw)
    · exact ⟨p, by omega, hw⟩
    · exact ⟨10, by omega, hw⟩
    · exact ⟨11, by omega, hw⟩
    · exact ⟨12, by omega, hw⟩

/-- The result of `isStraight` depends only on which ranks occur in the hand, not on
the order of the cards or on their suits. -/
theorem isStraight_congr (a b : CardArray_5)
    (h : ∀ r : RANK, (∃ c ∈ a.toList, c.rank = r) ↔ (∃ c ∈ b.toList, c.rank = r)) :
    Deck.isStraight a = Deck.isStraight b := by
  have hr : ∀ i, hasRank a.toList i = hasRank b.toList i := by
    intro i
    rw [Bool.eq_iff_iff, hasRank_iff, hasRank_iff]
    constructor
    · rintro ⟨c, hc, hi⟩
      obtain ⟨d, hd, hcd⟩ := (h c.rank).1 ⟨c, hc, rfl⟩
      exact ⟨d, hd, by rw [hcd]; exact hi⟩
    · rintro ⟨c, hc, hi⟩
      obtain ⟨d, hd, hcd⟩ := (h c.rank).2 ⟨c, hc, rfl⟩
      exact ⟨d, hd, by rw [hcd]; exact hi⟩
  rw [isStraight_eq_circularRun, isStraight_eq_circularRun]
  simp only [circularRun, windowAt, hr]

/-- C11, the code at the failing inputs. The hands `J Q K A 2`, `Q K A 2 3` and
`K A 2 3 4` are accepted by `isStraight` although their ranks are not five
consecutive ranks with the ace lowest or highest; the four hands of the tests
give true, false, true, true, as the claim says. -/
theorem isStraight_round_the_corner :
    Deck.isStraight (hearts RANK.J RANK.Q RANK.K RANK.A RANK.TWO) = true ∧
    straightAsStated (hearts RANK.J RANK.Q RANK.K RANK.A RANK.TWO) = false ∧
    Deck.isStraight (hearts RANK.Q RANK.K RANK.A RANK.TWO RANK.THREE) = true ∧
    straightAsStated (hearts RANK.Q RANK.K RANK.A RANK.TWO RANK.THREE) = false ∧
    Deck.isStraight (hearts RANK.K RANK.A RANK.TWO RANK.THREE RANK.FOUR) = true ∧
    straightAsStated (hearts RANK.K RANK.A RANK.TWO RANK.THREE RANK.FOUR) = false ∧
    Deck.isStraight (hearts RANK.A RANK.FIVE RANK.TWO RANK.THREE RANK.FOUR) = true ∧
    Deck.isStraight (hearts RANK.A RANK.FIVE RANK.THREE RANK.FOUR RANK.SIX) = false ∧
    Deck.isStraight (hearts RANK.SIX RANK.SEVEN RANK.TEN RANK.NINE RANK.EIGHT) = true ∧
    Deck.isStraight (hearts RANK.TEN RANK.K RANK.A RANK.J RANK.Q) = true := by
  decide

end PokerTask1
